import Mathlib

/-!
# Verification of the OBJ mesh tool (go_project)

A shallow embedding of `src/project/model.go` (variant B, immediate transforms, line
segments and polygon reconstruction) and `src/go/model.go` (variant A, deferred
scale/translate), followed by theorems about the parser, the serializer, the topology
reconstructor and the rotation.

Conventions of the embedding
* a Go `string` is a list of characters (`Str`);
* a Go `int` is an `Int` kept in the 64-bit two's-complement range by `wrapInt`;
* `float64` is an abstract type `F`; `strconv.ParseFloat` and the `%f` verb are
  parameters (`pf`, `fmtF`), so nothing depends on a particular rounding;
* the standard-library functions `strings.Fields`, `strings.Split`, `strings.HasPrefix`,
  `strconv.Atoi` and the `%d` verb are modelled from their documented behaviour;
* a runtime panic (slice or index out of range) is the fault `Fault.outOfRange`.
-/

namespace ObjTool

/-! ## Strings and integers of the Go standard library -/

/-- A Go string, as its sequence of characters. -/
abbrev Str := List Char

/-- Go `unicode.IsSpace`: the white-space characters `strings.Fields` splits on. -/
def isSpace (c : Char) : Bool :=
  let n := c.toNat
  (decide (9 ≤ n) && decide (n ≤ 13)) || n == 32 || n == 0x85 || n == 0xA0 || n == 0x1680
    || (decide (0x2000 ≤ n) && decide (n ≤ 0x200A)) || n == 0x2028 || n == 0x2029
    || n == 0x202F || n == 0x205F || n == 0x3000

/-- Go `strings.HasPrefix`. -/
def HasPrefix : Str → Str → Bool
  | _, [] => true
  | [], _ :: _ => false
  | c :: s, p :: ps => c == p && HasPrefix s ps

/-- Whether the text begins with a non-space character. -/
def startsWord : Str → Bool
  | [] => false
  | d :: _ => !isSpace d

/-- Put a character in front of the first field of a field list. -/
def consField (c : Char) : List Str → List Str
  | [] => [[c]]
  | w :: ws => (c :: w) :: ws

/-- Go `strings.Fields`: the maximal runs of non-space characters, in order. -/
def Fields : Str → List Str
  | [] => []
  | c :: cs =>
    if isSpace c then Fields cs
    else if startsWord cs then consField c (Fields cs)
    else [c] :: Fields cs

/-- Go `strings.Split(s, sep)` for a one-character separator: the pieces between the
separators; always at least one piece. -/
def Split (sep : Char) : Str → List Str
  | [] => [[]]
  | c :: cs => if c = sep then [] :: Split sep cs else consField c (Split sep cs)

/-- Smallest value of a 64-bit Go `int`. -/
def minInt : Int := -9223372036854775808

/-- Largest value of a 64-bit Go `int`. -/
def maxInt : Int := 9223372036854775807

/-- Two's-complement wrap-around of 64-bit `int` arithmetic. -/
def wrapInt (x : Int) : Int := (x + 9223372036854775808) % 18446744073709551616 - 9223372036854775808

/-- Whether the character is a decimal digit. -/
def isDigit (c : Char) : Bool := decide (48 ≤ c.toNat) && decide (c.toNat ≤ 57)

/-- Value of a decimal digit character. -/
def digitVal (c : Char) : Nat := c.toNat - 48

/-- Value of a digit string, most significant digit first. -/
def digitsVal (s : Str) : Nat := s.foldl (fun acc c => acc * 10 + digitVal c) 0

/-- Go `strconv.Atoi`: an optional sign, then one or more decimal digits, and the value
must fit a 64-bit `int`; `none` stands for a returned error. -/
def Atoi (s : Str) : Option Int :=
  let body : Str := match s with
    | '-' :: r => r
    | '+' :: r => r
    | _ => s
  let neg : Bool := match s with
    | '-' :: _ => true
    | _ => false
  if body.isEmpty || !body.all isDigit then none
  else
    let v : Int := if neg then -(digitsVal body : Int) else (digitsVal body : Int)
    if minInt ≤ v ∧ v ≤ maxInt then some v else none

/-- Character of a decimal digit. -/
def digitChar (d : Nat) : Char := Char.ofNat (48 + d)

/-- Decimal digits of a natural number, least significant first (`fuel` bounds the
number of digits). -/
def digitsRev : Nat → Nat → List Nat
  | 0, _ => []
  | fuel + 1, n => if n < 10 then [n] else (n % 10) :: digitsRev fuel (n / 10)

/-- Decimal text of a natural number. -/
def fmtNat (n : Nat) : Str := ((digitsRev (n + 1) n).reverse).map digitChar

/-- The `%d` verb of `fmt.Sprintf` on an `int`. -/
def fmtInt (i : Int) : Str :=
  if i < 0 then '-' :: fmtNat i.natAbs else fmtNat i.natAbs

/-! ## Data model (`model.go`, both variants) -/

/-- Go `Vertex`. -/
structure Vertex (F : Type) where
  X : F
  Y : F
  Z : F
deriving DecidableEq, Repr

/-- Go `TexCoord`. -/
structure TexCoord (F : Type) where
  U : F
  V : F
deriving DecidableEq, Repr

/-- Go `Normal`. -/
structure Normal (F : Type) where
  X : F
  Y : F
  Z : F
deriving DecidableEq, Repr

/-- Go `Face`: zero-based vertex, texture and normal indices. -/
structure Face where
  Vertices : List Int
  TexCoords : List Int
  Normals : List Int
deriving DecidableEq, Repr

/-- Go `Line` (variant B): a segment between two zero-based vertex indices. -/
structure Line where
  Start : Int
  End : Int
deriving DecidableEq, Repr

/-- What a call can fail with: a returned `error`, or a runtime panic. -/
inductive Fault where
  /-- runtime panic: slice bounds or index out of range -/
  | outOfRange
  /-- `invalid ... line`: wrong number of fields -/
  | invalidLine
  /-- `invalid ... coordinate` or `invalid ... index`: field number `k` is not a number -/
  | invalidField (k : Nat)
  /-- `error opening file` -/
  | openFailed
  /-- `error reading file` -/
  | readFailed
  /-- `error creating file` -/
  | createFailed
  /-- a failed write to the output stream -/
  | writeFailed
deriving DecidableEq, Repr

deriving instance DecidableEq for Except

/-- Go `s[1:]` on a slice; panics on an empty slice. -/
def sliceFrom1 {α : Type} : List α → Except Fault (List α)
  | [] => .error .outOfRange
  | _ :: t => .ok t

/-! ## Record parsers (identical text in both variants) -/

/-- Go `parseVertex`. -/
def parseVertex {F : Type} (pf : Str → Option F) (line : Str) : Except Fault (Vertex F) :=
  match sliceFrom1 (Fields line) with
  | .error e => .error e
  | .ok parts =>
    match parts with
    | [p0, p1, p2] =>
      match pf p0 with
      | none => .error (.invalidField 0)
      | some x =>
        match pf p1 with
        | none => .error (.invalidField 1)
        | some y =>
          match pf p2 with
          | none => .error (.invalidField 2)
          | some z => .ok ⟨x, y, z⟩
    | _ => .error .invalidLine

/-- Go `parseTexCoord`. -/
def parseTexCoord {F : Type} (pf : Str → Option F) (line : Str) : Except Fault (TexCoord F) :=
  match sliceFrom1 (Fields line) with
  | .error e => .error e
  | .ok parts =>
    match parts with
    | [p0, p1] =>
      match pf p0 with
      | none => .error (.invalidField 0)
      | some u =>
        match pf p1 with
        | none => .error (.invalidField 1)
        | some v => .ok ⟨u, v⟩
    | _ => .error .invalidLine

/-- Go `parseNormal`. -/
def parseNormal {F : Type} (pf : Str → Option F) (line : Str) : Except Fault (Normal F) :=
  match sliceFrom1 (Fields line) with
  | .error e => .error e
  | .ok parts =>
    match parts with
    | [p0, p1, p2] =>
      match pf p0 with
      | none => .error (.invalidField 0)
      | some x =>
        match pf p1 with
        | none => .error (.invalidField 1)
        | some y =>
          match pf p2 with
          | none => .error (.invalidField 2)
          | some z => .ok ⟨x, y, z⟩
    | _ => .error .invalidLine

/-- One iteration of the loop of `parseFace`: read the reference `part` into `f`. -/
def parseRef (f : Face) (part : Str) : Except Fault Face :=
  match Split '/' part with
  | [] => .error .outOfRange
  | v0 :: rest =>
    match Atoi v0 with
    | none => .error (.invalidField 0)
    | some vIdx =>
      let f1 : Face := { f with Vertices := f.Vertices ++ [wrapInt (vIdx - 1)] }
      let r2 : Except Fault Face :=
        match rest with
        | t :: _ =>
          if t ≠ [] then
            match Atoi t with
            | none => .error (.invalidField 1)
            | some tIdx => .ok { f1 with TexCoords := f1.TexCoords ++ [wrapInt (tIdx - 1)] }
          else .ok f1
        | [] => .ok f1
      match r2 with
      | .error e => .error e
      | .ok f2 =>
        match rest with
        | _ :: n :: _ =>
          if n ≠ [] then
            match Atoi n with
            | none => .error (.invalidField 2)
            | some nIdx => .ok { f2 with Normals := f2.Normals ++ [wrapInt (nIdx - 1)] }
          else .ok f2
        | _ => .ok f2

/-- The loop of `parseFace` over the references of the line. -/
def parseRefs : Face → List Str → Except Fault Face
  | f, [] => .ok f
  | f, part :: parts =>
    match parseRef f part with
    | .error e => .error e
    | .ok f1 => parseRefs f1 parts

/-- Go `parseFace`. -/
def parseFace (line : Str) : Except Fault Face :=
  match sliceFrom1 (Fields line) with
  | .error e => .error e
  | .ok parts => parseRefs ⟨[], [], []⟩ parts

/-- Go `parseLine` (variant B). -/
def parseLine (line : Str) : Except Fault Line :=
  match sliceFrom1 (Fields line) with
  | .error e => .error e
  | .ok parts =>
    match parts with
    | [p0, p1] =>
      match Atoi p0 with
      | none => .error (.invalidField 0)
      | some start =>
        match Atoi p1 with
        | none => .error (.invalidField 1)
        | some stop => .ok ⟨wrapInt (start - 1), wrapInt (stop - 1)⟩
    | _ => .error .invalidLine

/-- The byte stream handed to `LoadFromFile`: whether `os.Open` fails, the lines the
scanner yields, and whether `scanner.Err()` reports a read error at the end. -/
structure Source where
  openFails : Bool
  lines : List Str
  readFails : Bool

/-! ## Loops over a slice and the buffered writer -/

/-- Replace the element at index `i` by its image under `f` (`xs[i] = f(xs[i])`). -/
def modifyAt {α : Type} (f : α → α) : Nat → List α → List α
  | _, [] => []
  | 0, x :: xs => f x :: xs
  | i + 1, x :: xs => x :: modifyAt f i xs

/-- The Go loop `for i := range xs { xs[i] = f(xs[i]) }`. -/
def forRange {α : Type} (f : α → α) (xs : List α) : List α :=
  (List.range xs.length).foldl (fun acc i => modifyAt f i acc) xs

/-- The output stream behind `os.Create`: whether creating it fails, and how many
characters it accepts before a write fails (`none`: it never fails). -/
structure Sink where
  createFails : Bool
  capacity : Option Nat

/-- A `bufio.Writer`: the text accepted so far and its sticky error. -/
structure Writer where
  sink : Sink
  data : Str
  failed : Bool

/-- Go `bufio.Writer.WriteString`: after an error no more data is accepted. -/
def Writer.WriteString (w : Writer) (s : Str) : Writer :=
  if w.failed then w
  else
    match w.sink.capacity with
    | none => { w with data := w.data ++ s }
    | some cap =>
      if w.data.length + s.length ≤ cap then { w with data := w.data ++ s }
      else { w with data := w.data ++ s.take (cap - w.data.length), failed := true }

/-- Go `bufio.Writer.Flush`: reports the sticky error. -/
def Writer.Flush (w : Writer) : Option Fault :=
  if w.failed then some .writeFailed else none

/-- The strings written for corner `i` of a face: ` %d`, then `/%d` for the texture
index and `/%d` for the normal index when those slices are longer than `i`. -/
def refChunks (f : Face) (i : Nat) : List Str :=
  [' ' :: fmtInt (wrapInt (f.Vertices.getD i 0 + 1))]
    ++ (if f.TexCoords.length > i then ['/' :: fmtInt (wrapInt (f.TexCoords.getD i 0 + 1))] else [])
    ++ (if f.Normals.length > i then ['/' :: fmtInt (wrapInt (f.Normals.getD i 0 + 1))] else [])

/-- The strings `SaveToFile` writes for one face, in order. -/
def faceChunks (f : Face) : List Str :=
  [['f']] ++ (List.range f.Vertices.length).flatMap (refChunks f) ++ [['\n']]

/-- The `f` line of a face as it stands in the written file (without the newline). -/
def faceLine (f : Face) : Str :=
  'f' :: ((List.range f.Vertices.length).flatMap (refChunks f)).flatten

/-- The text ` a b c` of three formatted numbers, as in `"v %f %f %f"`. -/
def fmt3 {F : Type} (fmtF : F → Str) (x y z : F) : Str :=
  fmtF x ++ ' ' :: fmtF y ++ ' ' :: fmtF z

/-- The strings written for the texture-coordinate section. -/
def texChunks {F : Type} (fmtF : F → Str) (ts : List (TexCoord F)) : List Str :=
  if ts.length > 0 then
    "\n# Texture Coordinates\n".toList
      :: ts.map (fun vt => 'v' :: 't' :: ' ' :: fmtF vt.U ++ ' ' :: fmtF vt.V ++ ['\n'])
  else []

/-- The strings written for the normals section. -/
def normalChunks {F : Type} (fmtF : F → Str) (ns : List (Normal F)) : List Str :=
  if ns.length > 0 then
    "\n# Normals\n".toList
      :: ns.map (fun vn => 'v' :: 'n' :: ' ' :: fmt3 fmtF vn.X vn.Y vn.Z ++ ['\n'])
  else []

/-- The strings written for the faces section. -/
def facesChunks (fs : List Face) : List Str :=
  if fs.length > 0 then "\n# Faces\n".toList :: fs.flatMap faceChunks else []

/-! ## Variant B: `src/project/model.go` -/

namespace B

/-- Go `Model` of variant B. -/
structure Model (F : Type) where
  Vertices : List (Vertex F)
  TexCoords : List (TexCoord F)
  Normals : List (Normal F)
  Faces : List Face
  Lines : List Line
  Scaler : F
  TranslateX : F
  TranslateY : F
  TranslateZ : F

/-- The zero value `Model{}`. -/
def Model.empty {F : Type} [Zero F] : Model F :=
  ⟨[], [], [], [], [], 0, 0, 0, 0⟩

/-- What an ignored parse error does to the loop of `LoadFromFile`: a returned error
skips the record, a panic escapes. -/
def keep {F α : Type} (m : Model F) (r : Except Fault α) (add : α → Model F) :
    Except Fault (Model F) :=
  match r with
  | .ok a => .ok (add a)
  | .error .outOfRange => .error .outOfRange
  | .error _ => .ok m

/-- The body of the scanner loop of `LoadFromFile`: the `switch` on the line prefix. -/
def loadLine {F : Type} (pf : Str → Option F) (m : Model F) (line : Str) :
    Except Fault (Model F) :=
  if HasPrefix line ['v', ' '] then
    keep m (parseVertex pf line) (fun v => { m with Vertices := m.Vertices ++ [v] })
  else if HasPrefix line ['v', 't', ' '] then
    keep m (parseTexCoord pf line) (fun vt => { m with TexCoords := m.TexCoords ++ [vt] })
  else if HasPrefix line ['v', 'n', ' '] then
    keep m (parseNormal pf line) (fun vn => { m with Normals := m.Normals ++ [vn] })
  else if HasPrefix line ['f', ' '] then
    keep m (parseFace line) (fun face => { m with Faces := m.Faces ++ [face] })
  else if HasPrefix line ['l', ' '] then
    keep m (parseLine line) (fun l => { m with Lines := m.Lines ++ [l] })
  else .ok m

/-- The scanner loop of `LoadFromFile`. -/
def loadLines {F : Type} (pf : Str → Option F) : Model F → List Str → Except Fault (Model F)
  | m, [] => .ok m
  | m, line :: rest =>
    match loadLine pf m line with
    | .error e => .error e
    | .ok m1 => loadLines pf m1 rest

/-- Go `LoadFromFile`: the document after the call and the returned error (`none` is
`nil`; a panic is reported as the fault `outOfRange`). -/
def LoadFromFile {F : Type} (pf : Str → Option F) (src : Source) (m : Model F) :
    Model F × Option Fault :=
  if src.openFails then (m, some .openFailed)
  else
    match loadLines pf m src.lines with
    | .error e => (m, some e)
    | .ok m1 => (m1, if src.readFails then some .readFailed else none)

/-- The Go statement `mp[k] = append(mp[k], v)` on a `map[int][]int`, kept as a list
of key/value pairs. -/
def mapAppend : List (Int × List Int) → Int → Int → List (Int × List Int)
  | [], k, v => [(k, [v])]
  | (k1, l) :: rest, k, v =>
    if k1 = k then (k1, l ++ [v]) :: rest else (k1, l) :: mapAppend rest k v

/-- The Go expression `mp[k]` on a `map[int][]int`: `nil` for an absent key. -/
def mapGet : List (Int × List Int) → Int → List Int
  | [], _ => []
  | (k1, l) :: rest, k => if k1 = k then l else mapGet rest k

/-- The first loop of `ConvertLinesToFaces`: the adjacency map of the segments. -/
def buildLineMap (lines : List Line) : List (Int × List Int) :=
  lines.foldl (fun mp line => mapAppend (mapAppend mp line.Start line.End) line.End line.Start) []

/-- The keys of the adjacency map. -/
def mapKeys (mp : List (Int × List Int)) : List Int := mp.map Prod.fst

/-- The neighbour scan: the first neighbour not in `visitedLines`, or `-1`. -/
def firstUnvisited (visitedLines : List Int) : List Int → Int
  | [] => -1
  | neighbor :: rest =>
    if neighbor ∈ visitedLines then firstUnvisited visitedLines rest else neighbor

/-- The inner `for` loop of `ConvertLinesToFaces`, started at `current` with the face
vertices `face` collected so far; returns the face vertices and `visitedLines`.
The set `visitedLines` is the list of the keys set to `true`; the local map `visited`
is written but never read and is left out. `none`: the fuel ran out. -/
def walk (lineMap : List (Int × List Int)) (start : Int) :
    Nat → Int → List Int → List Int → Option (List Int × List Int)
  | 0, _, _, _ => none
  | fuel + 1, current, face, visitedLines =>
    let face1 := face ++ [current]
    let visited1 := current :: visitedLines
    let next := firstUnvisited visited1 (mapGet lineMap current)
    if next = -1 then some (face1, visited1)
    else if next = start then some (face1, visited1)
    else walk lineMap start fuel next face1 visited1

/-- The outer loop `for start := range lineMap`, over the keys in the order `order`. -/
def outer (lineMap : List (Int × List Int)) (fuel : Nat) :
    List Int → List Face → List Int → Option (List Face)
  | [], faces, _ => some faces
  | start :: rest, faces, visitedLines =>
    if start ∈ visitedLines then outer lineMap fuel rest faces visitedLines
    else
      match walk lineMap start fuel start [] visitedLines with
      | none => none
      | some (face, visited1) =>
        outer lineMap fuel rest
          (if face.length > 2 then faces ++ [⟨face, [], []⟩] else faces) visited1

/-- Go `ConvertLinesToFaces`. Go leaves the order in which `range` enumerates the keys
of a map unspecified; `order` is that order. The inner loop visits a new vertex in each
iteration, so `2 * len(Lines) + 1` iterations always suffice (`outer_total`). -/
def ConvertLinesToFaces {F : Type} (order : List Int) (m : Model F) : Option (Model F) :=
  match outer (buildLineMap m.Lines) (2 * m.Lines.length + 1) order m.Faces [] with
  | none => none
  | some faces => some { m with Faces := faces }

/-- An order in which `range` can enumerate the keys of the adjacency map: every key
once. -/
def ValidOrder (order : List Int) (lines : List Line) : Prop :=
  order.Perm (mapKeys (buildLineMap lines))

instance (order : List Int) (lines : List Line) : Decidable (ValidOrder order lines) := by
  unfold ValidOrder; infer_instance

/-- Go `Scale`. -/
def Scale {F : Type} [Mul F] (sx sy sz : F) (m : Model F) : Model F :=
  { m with
    Scaler := m.Scaler * sx
    TranslateX := m.TranslateX * sx
    TranslateY := m.TranslateY * sy
    TranslateZ := m.TranslateZ * sz
    Vertices := forRange (fun v => ⟨v.X * sx, v.Y * sy, v.Z * sz⟩) m.Vertices }

/-- Go `Translate` (immediate). -/
def Translate {F : Type} [Add F] (tx ty tz : F) (m : Model F) : Model F :=
  { m with
    TranslateX := m.TranslateX + tx
    TranslateY := m.TranslateY + ty
    TranslateZ := m.TranslateZ + tz
    Vertices := forRange (fun v => ⟨v.X + tx, v.Y + ty, v.Z + tz⟩) m.Vertices }

/-- The body of the loop of `Rotate` for one vertex: the three axis rotations, each on
the coordinates the previous one left. -/
def rotateVertex {F : Type} [Mul F] [Add F] [Sub F] [Neg F]
    (cosRx sinRx cosRy sinRy cosRz sinRz : F) (v : Vertex F) : Vertex F :=
  let y := v.Y * cosRx - v.Z * sinRx
  let z := v.Y * sinRx + v.Z * cosRx
  let v1 : Vertex F := { v with Y := y, Z := z }
  let x := v1.X * cosRy + v1.Z * sinRy
  let z := (-v1.X) * sinRy + v1.Z * cosRy
  let v2 : Vertex F := { v1 with X := x, Z := z }
  let x := v2.X * cosRz - v2.Y * sinRz
  let y := v2.X * sinRz + v2.Y * cosRz
  { v2 with X := x, Y := y }

/-- Go `Rotate` (variant B): one loop, all three axes per vertex. -/
def Rotate {F : Type} [Mul F] [Add F] [Sub F] [Neg F] (cos sin : F → F) (rx ry rz : F)
    (m : Model F) : Model F :=
  { m with
    Vertices := forRange (rotateVertex (cos rx) (sin rx) (cos ry) (sin ry) (cos rz) (sin rz))
      m.Vertices }

/-- The arguments of the successive `WriteString` calls of `SaveToFile`. -/
def saveChunks {F : Type} (fmtF : F → Str) (m : Model F) : List Str :=
  ["# Parsed .obj file\n\n".toList, "# Vertices\n".toList]
    ++ m.Vertices.map (fun v => 'v' :: ' ' :: fmt3 fmtF v.X v.Y v.Z ++ ['\n'])
    ++ texChunks fmtF m.TexCoords
    ++ normalChunks fmtF m.Normals
    ++ facesChunks m.Faces

/-- Go `SaveToFile`: the returned error (`none` is `nil`) and the text the stream
accepted. The results of `WriteString` and of `Flush` are discarded by the code. -/
def SaveToFile {F : Type} (fmtF : F → Str) (sink : Sink) (m : Model F) : Option Fault × Str :=
  if sink.createFails then (some .createFailed, [])
  else
    let writer : Writer := ⟨sink, [], false⟩
    let writer := (saveChunks fmtF m).foldl Writer.WriteString writer
    let _flushed := writer.Flush
    (none, writer.data)

end B

/-! ## Variant A: `src/go/model.go` -/

namespace A

/-- Go `Model` of variant A. -/
structure Model (F : Type) where
  Vertices : List (Vertex F)
  TexCoords : List (TexCoord F)
  Normals : List (Normal F)
  Faces : List Face
  Scale : F
  TranslateX : F
  TranslateY : F
  TranslateZ : F

/-- The zero value `Model{}`, as `main` creates it. -/
def Model.empty {F : Type} [Zero F] : Model F :=
  ⟨[], [], [], [], 0, 0, 0, 0⟩

/-- What an ignored parse error does to the loop of `LoadFromFile`. -/
def keep {F α : Type} (m : Model F) (r : Except Fault α) (add : α → Model F) :
    Except Fault (Model F) :=
  match r with
  | .ok a => .ok (add a)
  | .error .outOfRange => .error .outOfRange
  | .error _ => .ok m

/-- The body of the scanner loop of `LoadFromFile` (no `l` lines in this variant). -/
def loadLine {F : Type} (pf : Str → Option F) (m : Model F) (line : Str) :
    Except Fault (Model F) :=
  if HasPrefix line ['v', ' '] then
    keep m (parseVertex pf line) (fun v => { m with Vertices := m.Vertices ++ [v] })
  else if HasPrefix line ['v', 't', ' '] then
    keep m (parseTexCoord pf line) (fun vt => { m with TexCoords := m.TexCoords ++ [vt] })
  else if HasPrefix line ['v', 'n', ' '] then
    keep m (parseNormal pf line) (fun vn => { m with Normals := m.Normals ++ [vn] })
  else if HasPrefix line ['f', ' '] then
    keep m (parseFace line) (fun face => { m with Faces := m.Faces ++ [face] })
  else .ok m

/-- The scanner loop of `LoadFromFile`. -/
def loadLines {F : Type} (pf : Str → Option F) : Model F → List Str → Except Fault (Model F)
  | m, [] => .ok m
  | m, line :: rest =>
    match loadLine pf m line with
    | .error e => .error e
    | .ok m1 => loadLines pf m1 rest

/-- Go `LoadFromFile` of variant A. -/
def LoadFromFile {F : Type} (pf : Str → Option F) (src : Source) (m : Model F) :
    Model F × Option Fault :=
  if src.openFails then (m, some .openFailed)
  else
    match loadLines pf m src.lines with
    | .error e => (m, some e)
    | .ok m1 => (m1, if src.readFails then some .readFailed else none)

/-- Go `Translate` (deferred): only the accumulators change. -/
def Translate {F : Type} [Add F] (tx ty tz : F) (m : Model F) : Model F :=
  { m with
    TranslateX := m.TranslateX + tx
    TranslateY := m.TranslateY + ty
    TranslateZ := m.TranslateZ + tz }

/-- Go `Rotate` (variant A): three loops over all vertices, one per axis. -/
def Rotate {F : Type} [Mul F] [Add F] [Sub F] [Neg F] (cos sin : F → F) (rx ry rz : F)
    (m : Model F) : Model F :=
  let vs1 := forRange (fun v : Vertex F =>
    { v with Y := v.Y * cos rx - v.Z * sin rx, Z := v.Y * sin rx + v.Z * cos rx }) m.Vertices
  let vs2 := forRange (fun v : Vertex F =>
    { v with X := v.X * cos ry + v.Z * sin ry, Z := (-v.X) * sin ry + v.Z * cos ry }) vs1
  let vs3 := forRange (fun v : Vertex F =>
    { v with X := v.X * cos rz - v.Y * sin rz, Y := v.X * sin rz + v.Y * cos rz }) vs2
  { m with Vertices := vs3 }

/-- The arguments of the successive `WriteString` calls of `SaveToFile`: the vertex
lines carry `coordinate * Scale + Translate`. -/
def saveChunks {F : Type} [Mul F] [Add F] (fmtF : F → Str) (m : Model F) : List Str :=
  ["# Parsed .obj file\n\n".toList, "# Vertices\n".toList]
    ++ m.Vertices.map (fun v => 'v' :: ' ' :: fmt3 fmtF (v.X * m.Scale + m.TranslateX)
        (v.Y * m.Scale + m.TranslateY) (v.Z * m.Scale + m.TranslateZ) ++ ['\n'])
    ++ texChunks fmtF m.TexCoords
    ++ normalChunks fmtF m.Normals
    ++ facesChunks m.Faces

/-- Go `SaveToFile` of variant A. -/
def SaveToFile {F : Type} [Mul F] [Add F] (fmtF : F → Str) (sink : Sink) (m : Model F) :
    Option Fault × Str :=
  if sink.createFails then (some .createFailed, [])
  else
    let writer : Writer := ⟨sink, [], false⟩
    let writer := (saveChunks fmtF m).foldl Writer.WriteString writer
    let _flushed := writer.Flush
    (none, writer.data)

end A

/-! ## Specification-side definitions -/

open B

/-- The vertex a line stands for, in the words of the specification: the line starts
with `v `, what follows the prefix has exactly three white-space separated fields, and
each of them parses as a float. -/
def specVertex {F : Type} (pf : Str → Option F) (line : Str) : Option (Vertex F) :=
  if HasPrefix line ['v', ' '] then
    match Fields (line.drop 2) with
    | [a, b, c] =>
      match pf a, pf b, pf c with
      | some x, some y, some z => some ⟨x, y, z⟩
      | _, _, _ => none
    | _ => none
  else none


/-- A face reference with a component that is read but is not an integer: the vertex
component, or a texture or normal component that is present and not empty. -/
def badRef (part : Str) : Bool :=
  match Split '/' part with
  | [] => false
  | v :: rest =>
    (Atoi v).isNone
      || (match rest with
          | t :: _ => !t.isEmpty && (Atoi t).isNone
          | [] => false)
      || (match rest with
          | _ :: n :: _ => !n.isEmpty && (Atoi n).isNone
          | _ => false)

/-- The line `f i1 ... in`: the prefix and the decimal numbers, one space before each. -/
def intsLine (is : List Int) : Str := 'f' :: is.flatMap (fun i => ' ' :: fmtInt i)


/-- The neighbours a vertex gets from one segment, in the order the first loop of
`ConvertLinesToFaces` appends them. -/
def lineNeighbours (x : Int) (l : Line) : List Int :=
  (if l.Start = x then [l.End] else []) ++ (if l.End = x then [l.Start] else [])

/-- The adjacency list of a vertex: its neighbours in segment order. -/
def neighbours (lines : List Line) (x : Int) : List Int :=
  lines.flatMap (lineNeighbours x)

/-- All end points of the segments. -/
def endpoints (lines : List Line) : List Int :=
  lines.flatMap (fun l => [l.Start, l.End])

/-- Whether a segment joins the two vertices, in either orientation. -/
def joined (lines : List Line) (a b : Int) : Bool :=
  lines.any (fun l => (l.Start == a && l.End == b) || (l.Start == b && l.End == a))

/-- Whether each two consecutive vertices of the list are joined by a segment. -/
def consecutiveJoined (lines : List Line) : List Int → Bool
  | a :: b :: rest => joined lines a b && consecutiveJoined lines (b :: rest)
  | _ => true

/-- Whether the list is a closed polygon loop of the segment graph: consecutive vertices
are joined, and so are the last and the first. -/
def closedLoop (lines : List Line) (vs : List Int) : Bool :=
  consecutiveJoined lines vs &&
    (match vs.getLast?, vs.head? with
     | some last, some first => joined lines last first
     | _, _ => true)

/-- How many end points (with repetitions) are not yet visited: the measure that bounds
the inner loop of `ConvertLinesToFaces`. -/
def unvisitedCount (pool visited : List Int) : Nat :=
  (pool.filter (fun x => decide (x ∉ visited))).length

/-- What every face built by the inner loop of `ConvertLinesToFaces` looks like: only
vertex indices, more than two of them, no vertex twice, and each vertex is in the
adjacency list of the one before it. -/
def WalkedFace (lineMap : List (Int × List Int)) (f : Face) : Prop :=
  f.TexCoords = [] ∧ f.Normals = [] ∧ 2 < f.Vertices.length ∧ f.Vertices.Nodup ∧
    List.Chain' (fun a b => b ∈ mapGet lineMap a) f.Vertices

/-- The segments between consecutive elements of a list of vertices. -/
def pairs : List Int → List Line
  | a :: b :: rest => ⟨a, b⟩ :: pairs (b :: rest)
  | _ => []

/-- The edges of the cycle through the vertices `c`, in order: each vertex to the next,
and the last back to the first. -/
def cycleEdges (c : List Int) : List Line := pairs (c ++ c.take 1)

/-- A segment with its smaller end first: what is left of it when its orientation is
forgotten. -/
def normalize (l : Line) : Line := if l.Start ≤ l.End then l else ⟨l.End, l.Start⟩

/-- The segment sequence forms the simple cycle through `c`: it lists each edge of the
cycle exactly once, in any order and orientation. -/
def IsCycleOf (lines : List Line) (c : List Int) : Prop :=
  (lines.map normalize).Perm ((cycleEdges c).map normalize)

instance (lines : List Line) (c : List Int) : Decidable (IsCycleOf lines c) := by
  unfold IsCycleOf; infer_instance

/-- A segment with its ends exchanged. -/
def Line.swap (l : Line) : Line := ⟨l.End, l.Start⟩

/-- The rotation around the X axis, as the specification writes it:
`y' = y cos rx - z sin rx`, `z' = y sin rx + z cos rx`. -/
def rotX {F : Type} [Mul F] [Add F] [Sub F] (c s : F) (v : Vertex F) : Vertex F :=
  ⟨v.X, v.Y * c - v.Z * s, v.Y * s + v.Z * c⟩

/-- The rotation around the Y axis: `x' = x cos ry + z sin ry`,
`z' = -x sin ry + z cos ry`. -/
def rotY {F : Type} [Mul F] [Add F] [Neg F] (c s : F) (v : Vertex F) : Vertex F :=
  ⟨v.X * c + v.Z * s, v.Y, (-v.X) * s + v.Z * c⟩

/-- The rotation around the Z axis: `x' = x cos rz - y sin rz`,
`y' = x sin rz + y cos rz`. -/
def rotZ {F : Type} [Mul F] [Add F] [Sub F] (c s : F) (v : Vertex F) : Vertex F :=
  ⟨v.X * c - v.Y * s, v.X * s + v.Y * c, v.Z⟩

/-- The three axis rotations in the order X, Y, Z, each applied to the result of the
one before. -/
def rotXYZ {F : Type} [Mul F] [Add F] [Sub F] [Neg F] (cos sin : F → F) (rx ry rz : F)
    (v : Vertex F) : Vertex F :=
  rotZ (cos rz) (sin rz) (rotY (cos ry) (sin ry) (rotX (cos rx) (sin rx) v))

/-- The line `v x y z` (with its newline) for a vertex, as `SaveToFile` formats it. -/
def vertexLine {F : Type} (fmtF : F → Str) (v : Vertex F) : Str :=
  'v' :: ' ' :: fmt3 fmtF v.X v.Y v.Z ++ ['\n']

/-- The faces section of the written file: nothing when there is no face, otherwise the
heading and one `f` line per face. -/
def facesText (fs : List Face) : Str :=
  if fs = [] then []
  else "\n# Faces\n".toList ++ (fs.map (fun f => faceLine f ++ ['\n'])).flatten

/-- The reference text of one corner: the vertex number, then `/` and the texture number
if there is one, then `/` and the normal number if there is one (all one-based). -/
def refWord (v : Int) (t n : Option Int) : Str :=
  fmtInt (wrapInt (v + 1))
    ++ (match t with
        | some t => '/' :: fmtInt (wrapInt (t + 1))
        | none => [])
    ++ (match n with
        | some n => '/' :: fmtInt (wrapInt (n + 1))
        | none => [])

/-- The reference texts of the corners of a face, corner by corner. -/
def refWords : List Int → List Int → List Int → List Str
  | [], _, _ => []
  | v :: vs, ts, ns => refWord v ts.head? ns.head? :: refWords vs ts.tail ns.tail

/-- All vertex indices of a list of faces, face after face. -/
def faceVertices (fs : List Face) : List Int := fs.flatMap (fun f => f.Vertices)

/-- Whether a stored vertex index references a position of a vertex sequence of length
`n`. -/
def indexInRange (n : Nat) (i : Int) : Bool := decide (0 ≤ i) && decide (i < (n : Int))

/-- Whether every vertex index stored in a face or a line segment of the document
references a position within its vertex sequence. -/
def indicesValid {F : Type} (m : Model F) : Bool :=
  m.Faces.all (fun f => f.Vertices.all (indexInRange m.Vertices.length))
    && m.Lines.all (fun l => indexInRange m.Vertices.length l.Start
        && indexInRange m.Vertices.length l.End)

/-- Whether an attribute sequence of a face is all-or-nothing: empty, or exactly as long
as the vertex sequence. -/
def allOrNothing (f : Face) : Bool :=
  (f.TexCoords.length == 0 || f.TexCoords.length == f.Vertices.length)
    && (f.Normals.length == 0 || f.Normals.length == f.Vertices.length)

/-- The texture-coordinate section of the written file: nothing when there is no texture
coordinate, otherwise a blank line, the heading and one `vt` line per element. -/
def texText {F : Type} (fmtF : F → Str) (ts : List (TexCoord F)) : Str :=
  if ts.isEmpty then []
  else "\n# Texture Coordinates\n".toList
    ++ (ts.map (fun vt => "vt ".toList ++ fmtF vt.U ++ " ".toList ++ fmtF vt.V
        ++ "\n".toList)).flatten

/-- The normals section of the written file: nothing when there is no normal, otherwise
a blank line, the heading and one `vn` line per element. -/
def normalsText {F : Type} (fmtF : F → Str) (ns : List (Normal F)) : Str :=
  if ns.isEmpty then []
  else "\n# Normals\n".toList
    ++ (ns.map (fun vn => "vn ".toList ++ fmtF vn.X ++ " ".toList ++ fmtF vn.Y
        ++ " ".toList ++ fmtF vn.Z ++ "\n".toList)).flatten

/-- The text of a saved document, section by section, in the words of the
specification: header comment line, blank line, `# Vertices` heading, one `v` line per
vertex, then the texture-coordinate, normals and faces sections. -/
def savedText {F : Type} (fmtF : F → Str) (m : Model F) : Str :=
  "# Parsed .obj file\n".toList ++ "\n".toList ++ "# Vertices\n".toList
    ++ (m.Vertices.map (fun v => "v ".toList ++ fmtF v.X ++ " ".toList ++ fmtF v.Y
        ++ " ".toList ++ fmtF v.Z ++ "\n".toList)).flatten
    ++ texText fmtF m.TexCoords ++ normalsText fmtF m.Normals ++ facesText m.Faces

/-- The claim that in variant A the order of `Translate` and `Rotate` matters: there are
a document and arguments (and an output stream) for which `Translate` followed by
`Rotate` makes `SaveToFile` write something else than `Rotate` followed by `Translate`. -/
def OrderMattersA (F : Type) [Mul F] [Add F] [Sub F] [Neg F] (cos sin : F → F) : Prop :=
  ∃ (fmtF : F → Str) (sink : Sink) (m : A.Model F) (tx ty tz rx ry rz : F),
    A.SaveToFile fmtF sink (A.Rotate cos sin rx ry rz (A.Translate tx ty tz m))
      ≠ A.SaveToFile fmtF sink (A.Translate tx ty tz (A.Rotate cos sin rx ry rz m))

/-- The squared distance of a vertex from the origin, `x^2 + y^2 + z^2`. -/
def sqDist {F : Type} [Add F] [Monoid F] (v : Vertex F) : F := v.X ^ 2 + v.Y ^ 2 + v.Z ^ 2

/-! ## The parser: strings, fields and the vertex records (C1) -/

theorem hasPrefix_iff (s p : Str) : HasPrefix s p = true ↔ ∃ r, s = p ++ r := by
  induction p generalizing s with
  | nil => simp [HasPrefix]
  | cons c p ih =>
    cases s with
    | nil => simp [HasPrefix]
    | cons d s =>
      simp only [HasPrefix, Bool.and_eq_true, beq_iff_eq, ih, List.cons_append, List.cons.injEq]
      constructor
      · rintro ⟨rfl, r, rfl⟩; exact ⟨r, rfl, rfl⟩
      · rintro ⟨r, rfl, rfl⟩; exact ⟨rfl, r, rfl⟩

theorem fields_space (c : Char) (cs : Str) (h : isSpace c = true) : Fields (c :: cs) = Fields cs := by
  simp [Fields, h]

theorem fields_cons_ne_nil (c : Char) (cs : Str) (h : isSpace c = false) : Fields (c :: cs) ≠ [] := by
  rw [Fields]
  simp only [h, Bool.false_eq_true, if_false]
  split
  · cases Fields cs <;> simp [consField]
  · simp

/-- A word followed by a space (or the end) is the first field. -/
theorem fields_word (w : Str) (rest : Str) (hw : w ≠ []) (hns : ∀ c ∈ w, isSpace c = false)
    (hr : startsWord rest = false) : Fields (w ++ rest) = w :: Fields rest := by
  induction w with
  | nil => exact absurd rfl hw
  | cons c w ih =>
    have hc : isSpace c = false := hns c (List.mem_cons_self _ _)
    cases w with
    | nil => simp [Fields, hc, hr]
    | cons d w =>
      have hd : isSpace d = false := hns d (by simp)
      have := ih (by simp) (fun x hx => hns x (List.mem_cons_of_mem _ hx))
      simp only [List.cons_append] at this ⊢
      rw [Fields]
      simp only [hc, startsWord, hd]
      simp [this, consField]

theorem split_ne_nil (sep : Char) (s : Str) : Split sep s ≠ [] := by
  induction s with
  | nil => simp [Split]
  | cons c cs ih =>
    rw [Split]
    split
    · simp
    · cases h : Split sep cs <;> simp [consField]

theorem parseVertex_no_panic {F : Type} (pf : Str → Option F) (line : Str)
    (h : Fields line ≠ []) : parseVertex pf line ≠ .error .outOfRange := by
  unfold parseVertex
  cases hf : Fields line with
  | nil => exact absurd hf h
  | cons w parts =>
    simp only [sliceFrom1]
    split
    · split
      · simp
      · split
        · simp
        · split <;> simp
    · simp

theorem parseTexCoord_no_panic {F : Type} (pf : Str → Option F) (line : Str)
    (h : Fields line ≠ []) : parseTexCoord pf line ≠ .error .outOfRange := by
  unfold parseTexCoord
  cases hf : Fields line with
  | nil => exact absurd hf h
  | cons w parts =>
    simp only [sliceFrom1]
    split
    · split
      · simp
      · split <;> simp
    · simp

theorem parseNormal_no_panic {F : Type} (pf : Str → Option F) (line : Str)
    (h : Fields line ≠ []) : parseNormal pf line ≠ .error .outOfRange := by
  unfold parseNormal
  cases hf : Fields line with
  | nil => exact absurd hf h
  | cons w parts =>
    simp only [sliceFrom1]
    split
    · split
      · simp
      · split
        · simp
        · split <;> simp
    · simp

theorem parseLine_no_panic (line : Str)
    (h : Fields line ≠ []) : parseLine line ≠ .error .outOfRange := by
  unfold parseLine
  cases hf : Fields line with
  | nil => exact absurd hf h
  | cons w parts =>
    simp only [sliceFrom1]
    split
    · split
      · simp
      · split <;> simp
    · simp

theorem parseRef_no_panic (f : Face) (part : Str) : parseRef f part ≠ .error .outOfRange := by
  unfold parseRef
  cases hs : Split '/' part with
  | nil => exact absurd hs (split_ne_nil _ _)
  | cons v0 rest =>
    simp only
    cases Atoi v0 with
    | none => simp
    | some vIdx =>
      simp only
      rcases rest with _ | ⟨t, _ | ⟨n, rest⟩⟩
      · simp
      · simp only
        by_cases ht : t = []
        · simp [ht]
        · cases Atoi t <;> simp [ht]
      · simp only
        by_cases ht : t = []
        · by_cases hn : n = []
          · simp [ht, hn]
          · cases Atoi n <;> simp [ht, hn]
        · cases Atoi t with
          | none => simp [ht]
          | some tIdx =>
            by_cases hn : n = []
            · simp [ht, hn]
            · cases Atoi n <;> simp [ht, hn]

theorem parseRefs_no_panic (parts : List Str) (f : Face) :
    parseRefs f parts ≠ .error .outOfRange := by
  induction parts generalizing f with
  | nil => simp [parseRefs]
  | cons p ps ih =>
    rw [parseRefs]
    cases h : parseRef f p with
    | error e =>
      simp only
      intro he
      injection he with he
      exact parseRef_no_panic f p (by rw [h, he])
    | ok f1 => exact ih f1

theorem parseFace_no_panic (line : Str)
    (h : Fields line ≠ []) : parseFace line ≠ .error .outOfRange := by
  unfold parseFace
  cases hf : Fields line with
  | nil => exact absurd hf h
  | cons w parts => exact parseRefs_no_panic parts _

theorem fields_ne_nil_of_start (line p : Str) (c : Char) (hc : isSpace c = false)
    (h : HasPrefix line (c :: p) = true) : Fields line ≠ [] := by
  obtain ⟨r, rfl⟩ := (hasPrefix_iff _ _).1 h
  exact fields_cons_ne_nil c _ hc

theorem fields_v_prefix (r : Str) : Fields ('v' :: ' ' :: r) = ['v'] :: Fields r := by
  have h := fields_word ['v'] (' ' :: r) (by simp) (by decide)
    (show (!isSpace ' ') = false by decide)
  rw [fields_space ' ' r (by decide)] at h
  simpa using h

/-- On a `v ` line `parseVertex` returns the vertex the line stands for, and an error
(never a panic) when it stands for none. -/
theorem parseVertex_spec {F : Type} (pf : Str → Option F) (line : Str)
    (h : HasPrefix line ['v', ' '] = true) :
    (∃ v, specVertex pf line = some v ∧ parseVertex pf line = .ok v) ∨
    (specVertex pf line = none ∧ ∃ e, parseVertex pf line = .error e ∧ e ≠ .outOfRange) := by
  obtain ⟨r, rfl⟩ := (hasPrefix_iff _ _).1 h
  simp only [List.cons_append, List.nil_append] at h ⊢
  unfold specVertex parseVertex
  simp only [h, if_true, fields_v_prefix, sliceFrom1, List.drop_succ_cons, List.drop_zero]
  rcases Fields r with _ | ⟨a, _ | ⟨b, _ | ⟨c, _ | ⟨d, l⟩⟩⟩⟩
  · simp
  · simp
  · simp
  · rcases ha : pf a with _ | x <;> rcases hb : pf b with _ | y <;>
      rcases hc : pf c with _ | z <;> simp [ha, hb, hc]
  · simp

theorem keep_cases {F α : Type} (m : Model F) (r : Except Fault α) (add : α → Model F)
    (h : r ≠ .error .outOfRange) :
    (∃ a, r = .ok a ∧ keep m r add = .ok (add a)) ∨ ((∃ e, r = .error e) ∧ keep m r add = .ok m) := by
  cases r with
  | ok a => exact Or.inl ⟨a, rfl, rfl⟩
  | error e =>
    right
    refine ⟨⟨e, rfl⟩, ?_⟩
    cases e <;> first | rfl | exact absurd rfl h

/-- One line never makes the loader panic, and it extends the vertex sequence by the
vertex the line stands for, if any. -/
theorem loadLine_vertices {F : Type} (pf : Str → Option F) (m : Model F) (line : Str) :
    ∃ m1, loadLine pf m line = .ok m1 ∧
      m1.Vertices = m.Vertices ++ (specVertex pf line).toList := by
  unfold loadLine
  by_cases hv : HasPrefix line ['v', ' '] = true
  · simp only [hv, if_true]
    rcases parseVertex_spec pf line hv with ⟨v, hs, hp⟩ | ⟨hs, e, hp, he⟩
    · rw [hp, hs]; exact ⟨_, rfl, rfl⟩
    · rw [hp, hs]
      refine ⟨m, ?_, by simp⟩
      cases e <;> first | rfl | exact absurd rfl he
  · have hsv : specVertex pf line = none := by simp [specVertex, hv]
    simp only [hv, hsv, Option.toList, List.append_nil]
    by_cases h2 : HasPrefix line ['v', 't', ' '] = true
    · simp only [h2, if_true]
      rcases keep_cases m (parseTexCoord pf line) (fun vt => { m with TexCoords := m.TexCoords ++ [vt] })
        (parseTexCoord_no_panic pf line (fields_ne_nil_of_start line _ 'v' (by decide) h2)) with ⟨a, _, h⟩ | ⟨_, h⟩
      · exact ⟨_, h, rfl⟩
      · exact ⟨_, h, rfl⟩
    · simp only [h2]
      by_cases h3 : HasPrefix line ['v', 'n', ' '] = true
      · simp only [h3, if_true]
        rcases keep_cases m (parseNormal pf line) (fun vn => { m with Normals := m.Normals ++ [vn] })
          (parseNormal_no_panic pf line (fields_ne_nil_of_start line _ 'v' (by decide) h3)) with ⟨a, _, h⟩ | ⟨_, h⟩
        · exact ⟨_, h, rfl⟩
        · exact ⟨_, h, rfl⟩
      · simp only [h3]
        by_cases h4 : HasPrefix line ['f', ' '] = true
        · simp only [h4, if_true]
          rcases keep_cases m (parseFace line) (fun face => { m with Faces := m.Faces ++ [face] })
            (parseFace_no_panic line (fields_ne_nil_of_start line _ 'f' (by decide) h4)) with ⟨a, _, h⟩ | ⟨_, h⟩
          · exact ⟨_, h, rfl⟩
          · exact ⟨_, h, rfl⟩
        · simp only [h4]
          by_cases h5 : HasPrefix line ['l', ' '] = true
          · simp only [h5, if_true]
            rcases keep_cases m (parseLine line) (fun l => { m with Lines := m.Lines ++ [l] })
              (parseLine_no_panic line (fields_ne_nil_of_start line _ 'l' (by decide) h5)) with ⟨a, _, h⟩ | ⟨_, h⟩
            · exact ⟨_, h, rfl⟩
            · exact ⟨_, h, rfl⟩
          · simp only [h5]
            exact ⟨m, by simp, rfl⟩

theorem loadLines_vertices {F : Type} (pf : Str → Option F) (lines : List Str) (m : Model F) :
    ∃ m1, loadLines pf m lines = .ok m1 ∧
      m1.Vertices = m.Vertices ++ lines.filterMap (specVertex pf) := by
  induction lines generalizing m with
  | nil => exact ⟨m, rfl, by simp⟩
  | cons line rest ih =>
    obtain ⟨m1, h1, hv1⟩ := loadLine_vertices pf m line
    obtain ⟨m2, h2, hv2⟩ := ih m1
    refine ⟨m2, by simp [loadLines, h1, h2], ?_⟩
    rw [hv2, hv1, List.filterMap_cons]
    cases specVertex pf line <;> simp

/-- C1: for every sequence of lines read without a stream error, `LoadFromFile` on an
empty document returns no error and the vertex sequence is, in file order, exactly the
vertices of the lines that start with `v `, have exactly three fields after the prefix
and whose fields all parse as floats; any other `v ` line (such as `v 1 2`) leaves the
document as it was. -/
theorem load_keeps_wellformed_vertices {F : Type} [Zero F] (pf : Str → Option F)
    (lines : List Str) :
    (LoadFromFile pf ⟨false, lines, false⟩ Model.empty).2 = none ∧
    (LoadFromFile pf ⟨false, lines, false⟩ Model.empty).1.Vertices
      = lines.filterMap (specVertex pf) ∧
    (∀ (m : Model F) (line : Str), HasPrefix line ['v', ' '] = true →
      specVertex pf line = none → loadLine pf m line = .ok m) ∧
    specVertex pf "v 1 2".toList = none := by
  obtain ⟨m1, h1, hv1⟩ := loadLines_vertices pf lines (Model.empty : Model F)
  have hl : LoadFromFile pf ⟨false, lines, false⟩ (Model.empty : Model F) = (m1, none) := by
    simp [LoadFromFile, h1]
  refine ⟨by rw [hl], by rw [hl, hv1]; simp [Model.empty], ?_, ?_⟩
  · intro m line hp hs
    rcases parseVertex_spec pf line hp with ⟨v, hs1, _⟩ | ⟨_, e, hp1, he⟩
    · rw [hs] at hs1; exact absurd hs1 (by simp)
    · unfold loadLine
      simp only [hp, if_true, hp1]
      cases e <;> first | rfl | exact absurd rfl he
  · have : Fields "1 2".toList = ["1".toList, "2".toList] := by decide
    unfold specVertex
    have hp : HasPrefix "v 1 2".toList ['v', ' '] = true := by decide
    have hd : List.drop 2 "v 1 2".toList = "1 2".toList := by decide
    simp only [hp, if_true, hd, this]

/-! ## Face parse errors are swallowed by the loader (C2) -/

theorem parseRef_bad (f : Face) (part : Str) (h : badRef part = true) :
    ∃ e, parseRef f part = .error e := by
  unfold badRef at h
  unfold parseRef
  cases hs : Split '/' part with
  | nil => exact ⟨_, rfl⟩
  | cons v0 rest =>
    rw [hs] at h
    simp only at h ⊢
    cases hv : Atoi v0 with
    | none => exact ⟨_, rfl⟩
    | some vIdx =>
      simp only [hv, Option.isNone_some, Bool.false_or] at h ⊢
      rcases rest with _ | ⟨t, _ | ⟨n, rest⟩⟩
      · simp at h
      · simp only [Bool.or_false, Bool.and_eq_true, Bool.not_eq_true', List.isEmpty_eq_false,
          Option.isNone_iff_eq_none] at h
        simp [h.1, h.2]
      · simp only [Bool.or_eq_true, Bool.and_eq_true, Bool.not_eq_true', List.isEmpty_eq_false,
          Option.isNone_iff_eq_none] at h
        by_cases ht : t = []
        · rcases h with h | h
          · exact absurd ht h.1
          · simp [ht, h.1, h.2]
        · cases hT : Atoi t with
          | none => simp [ht, hT]
          | some tIdx =>
            rcases h with h | h
            · rw [hT] at h; exact absurd h.2 (by simp)
            · simp [ht, hT, h.1, h.2]

theorem parseRefs_bad (parts : List Str) (f : Face) (h : ∃ part ∈ parts, badRef part = true) :
    ∃ e, parseRefs f parts = .error e := by
  induction parts generalizing f with
  | nil => obtain ⟨p, hp, _⟩ := h; simp at hp
  | cons p ps ih =>
    rw [parseRefs]
    cases hp : parseRef f p with
    | error e => exact ⟨e, rfl⟩
    | ok f1 =>
      simp only
      apply ih
      obtain ⟨q, hq, hb⟩ := h
      rcases List.mem_cons.1 hq with rfl | hq
      · obtain ⟨e, he⟩ := parseRef_bad f q hb
        rw [he] at hp; cases hp
      · exact ⟨q, hq, hb⟩

/-- C2 (as the code behaves): an `f ` line with a reference whose vertex, texture or
normal component is not an integer makes `parseFace` return an error, and `LoadFromFile`
swallows it: that line leaves the document unchanged, and a load whose stream is read
without error returns no error whatever its lines are. -/
theorem face_error_is_skipped {F : Type} (pf : Str → Option F) (line : Str)
    (hp : HasPrefix line ['f', ' '] = true)
    (hbad : ∃ part ∈ (Fields line).tail, badRef part = true) :
    (∃ e, parseFace line = .error e ∧ e ≠ .outOfRange) ∧
    (∀ m : Model F, loadLine pf m line = .ok m) ∧
    (∀ (m : Model F) (before after : List Str),
      (LoadFromFile pf ⟨false, before ++ line :: after, false⟩ m).2 = none) := by
  have hne : Fields line ≠ [] := fields_ne_nil_of_start line _ 'f' (by decide) hp
  have herr : ∃ e, parseFace line = .error e ∧ e ≠ .outOfRange := by
    have hnp := parseFace_no_panic line hne
    unfold parseFace at hnp ⊢
    cases hf : Fields line with
    | nil => exact absurd hf hne
    | cons w parts =>
      rw [hf] at hbad hnp
      simp only [sliceFrom1, List.tail_cons] at hbad hnp ⊢
      obtain ⟨e, he⟩ := parseRefs_bad parts ⟨[], [], []⟩ hbad
      refine ⟨e, he, ?_⟩
      rintro rfl
      exact hnp he
  refine ⟨herr, ?_, ?_⟩
  · intro m
    obtain ⟨e, he, hne⟩ := herr
    have h1 : HasPrefix line ['v', ' '] = false := by
      obtain ⟨r, rfl⟩ := (hasPrefix_iff _ _).1 hp
      rfl
    have h2 : HasPrefix line ['v', 't', ' '] = false := by
      obtain ⟨r, rfl⟩ := (hasPrefix_iff _ _).1 hp
      rfl
    have h3 : HasPrefix line ['v', 'n', ' '] = false := by
      obtain ⟨r, rfl⟩ := (hasPrefix_iff _ _).1 hp
      rfl
    unfold loadLine
    simp only [h1, h2, h3, hp, if_true, he, Bool.false_eq_true, if_false]
    cases e <;> first | rfl | exact absurd rfl hne
  · intro m before after
    obtain ⟨m1, h1, _⟩ := loadLines_vertices pf (before ++ line :: after) m
    simp [LoadFromFile, h1]

/-- C2, witness: the line `f 1/a 2 3`. -/
theorem face_error_is_skipped_witness :
    (∃ e, parseFace "f 1/a 2 3".toList = .error e ∧ e ≠ .outOfRange) ∧
    (∀ m : Model Int, loadLine Atoi m "f 1/a 2 3".toList = .ok m) ∧
    (∀ (m : Model Int) (before after : List Str),
      (LoadFromFile Atoi ⟨false, before ++ "f 1/a 2 3".toList :: after, false⟩ m).2 = none) :=
  face_error_is_skipped Atoi "f 1/a 2 3".toList (by decide)
    ⟨"1/a".toList, by decide, by decide⟩

/-- C2, counterexample: the input whose only line is `f 1/a 2 3` has a reference with a
non-integer texture component, `parseFace` fails on it, and yet `LoadFromFile` returns
no error (and no face is stored). -/
theorem face_error_not_propagated :
    badRef "1/a".toList = true ∧
    "1/a".toList ∈ (Fields "f 1/a 2 3".toList).tail ∧
    parseFace "f 1/a 2 3".toList = .error (.invalidField 1) ∧
    (LoadFromFile Atoi ⟨false, ["f 1/a 2 3".toList], false⟩ (Model.empty : Model Int)).2 = none ∧
    (LoadFromFile Atoi ⟨false, ["f 1/a 2 3".toList], false⟩ (Model.empty : Model Int)).1.Faces
      = [] := by
  refine ⟨by decide, by decide, by decide, by decide, by decide⟩

/-! ## Decimal integers: `%d` and `strconv.Atoi` -/

theorem digitChar_facts (d : Nat) (h : d < 10) :
    isDigit (digitChar d) = true ∧ digitVal (digitChar d) = d ∧
    isSpace (digitChar d) = false ∧ digitChar d ≠ '/' ∧ digitChar d ≠ '-' ∧
    digitChar d ≠ '+' := by
  interval_cases d <;> decide

theorem digitsRev_lt (fuel n : Nat) : ∀ d ∈ digitsRev fuel n, d < 10 := by
  induction fuel generalizing n with
  | zero => simp [digitsRev]
  | succ fuel ih =>
    intro d hd
    rw [digitsRev] at hd
    split at hd
    · simp at hd; omega
    · rcases List.mem_cons.1 hd with rfl | hd
      · omega
      · exact ih _ d hd

theorem digitsRev_ne_nil (fuel n : Nat) : digitsRev (fuel + 1) n ≠ [] := by
  rw [digitsRev]; split <;> simp

theorem digitsVal_snoc (s : Str) (c : Char) :
    digitsVal (s ++ [c]) = digitsVal s * 10 + digitVal c := by
  simp [digitsVal, List.foldl_append]

theorem digitsVal_digitsRev (fuel n : Nat) (h : n < fuel) :
    digitsVal ((digitsRev fuel n).reverse.map digitChar) = n := by
  induction fuel generalizing n with
  | zero => omega
  | succ fuel ih =>
    rw [digitsRev]
    split
    · rename_i h10
      simp [digitsVal, (digitChar_facts n h10).2.1]
    · rename_i h10
      have hlt : n / 10 < fuel := by omega
      simp only [List.reverse_cons, List.map_append, List.map_cons, List.map_nil]
      rw [digitsVal_snoc, ih _ hlt, (digitChar_facts (n % 10) (by omega)).2.1]
      omega

theorem fmtNat_chars (n : Nat) (c : Char) (hc : c ∈ fmtNat n) :
    isDigit c = true ∧ isSpace c = false ∧ c ≠ '/' ∧ c ≠ '-' ∧ c ≠ '+' := by
  unfold fmtNat at hc
  obtain ⟨d, hd, rfl⟩ := List.mem_map.1 hc
  have := digitChar_facts d (digitsRev_lt _ _ d (List.mem_reverse.1 hd))
  exact ⟨this.1, this.2.2.1, this.2.2.2.1, this.2.2.2.2.1, this.2.2.2.2.2⟩

theorem fmtNat_ne_nil (n : Nat) : fmtNat n ≠ [] := by
  unfold fmtNat
  simpa using digitsRev_ne_nil n n

theorem digitsVal_fmtNat (n : Nat) : digitsVal (fmtNat n) = n :=
  digitsVal_digitsRev (n + 1) n (by omega)

theorem fmtNat_all_digits (n : Nat) : (fmtNat n).all isDigit = true := by
  rw [List.all_eq_true]
  exact fun c hc => (fmtNat_chars n c hc).1

/-- Reading back a printed natural number. -/
theorem atoi_fmtNat (n : Nat) (h : (n : Int) ≤ maxInt) : Atoi (fmtNat n) = some (n : Int) := by
  have hne := fmtNat_ne_nil n
  obtain ⟨c, cs, hcs⟩ := List.exists_cons_of_ne_nil hne
  have hc := fmtNat_chars n c (by rw [hcs]; simp)
  have hbody : (match fmtNat n with
      | '-' :: r => r
      | '+' :: r => r
      | _ => fmtNat n) = fmtNat n := by
    rw [hcs]
    split
    · rename_i heq; injection heq with h1 _; exact absurd h1 hc.2.2.2.1
    · rename_i heq; injection heq with h1 _; exact absurd h1 hc.2.2.2.2
    · rfl
  have hneg : (match fmtNat n with
      | '-' :: _ => true
      | _ => false) = false := by
    rw [hcs]
    split
    · rename_i heq; injection heq with h1 _; exact absurd h1 hc.2.2.2.1
    · rfl
  unfold Atoi
  simp only [hbody, hneg]
  have he : (fmtNat n).isEmpty = false := by rw [hcs]; rfl
  simp only [he, fmtNat_all_digits, Bool.not_true, Bool.or_self, Bool.false_eq_true, if_false,
    digitsVal_fmtNat]
  have : minInt ≤ (n : Int) := by unfold minInt; omega
  simp [this, h]

/-- Reading back a printed `int`: `Atoi` inverts `%d` on the whole `int` range. -/
theorem atoi_fmtInt (i : Int) (hlo : minInt ≤ i) (hhi : i ≤ maxInt) :
    Atoi (fmtInt i) = some i := by
  unfold fmtInt
  by_cases hneg : i < 0
  · simp only [hneg, if_true]
    unfold Atoi
    simp only
    have he : (fmtNat i.natAbs).isEmpty = false := by
      cases h : fmtNat i.natAbs with
      | nil => exact absurd h (fmtNat_ne_nil _)
      | cons _ _ => rfl
    simp only [he, fmtNat_all_digits, Bool.not_true, Bool.or_self, Bool.false_eq_true, if_false,
      digitsVal_fmtNat, if_true]
    have h1 : -(i.natAbs : Int) = i := by omega
    rw [h1]
    simp [hlo, hhi]
  · simp only [hneg, if_false]
    have h1 : (i.natAbs : Int) = i := by omega
    have := atoi_fmtNat i.natAbs (by rw [h1]; exact hhi)
    rw [h1] at this
    exact this

theorem fmtInt_ne_nil (i : Int) : fmtInt i ≠ [] := by
  unfold fmtInt
  split
  · simp
  · exact fmtNat_ne_nil _

theorem fmtInt_chars (i : Int) (c : Char) (hc : c ∈ fmtInt i) :
    isSpace c = false ∧ c ≠ '/' := by
  unfold fmtInt at hc
  split at hc
  · rcases List.mem_cons.1 hc with rfl | hc
    · exact ⟨by decide, by decide⟩
    · exact ⟨(fmtNat_chars _ c hc).2.1, (fmtNat_chars _ c hc).2.2.1⟩
  · exact ⟨(fmtNat_chars _ c hc).2.1, (fmtNat_chars _ c hc).2.2.1⟩

theorem wrapInt_of_range (x : Int) (hlo : minInt ≤ x) (hhi : x ≤ maxInt) : wrapInt x = x := by
  unfold wrapInt
  unfold minInt at hlo
  unfold maxInt at hhi
  omega

theorem wrapInt_range (x : Int) : minInt ≤ wrapInt x ∧ wrapInt x ≤ maxInt := by
  unfold wrapInt minInt maxInt
  omega

/-! ## Splitting and joining references -/

theorem split_no_sep (sep : Char) (w : Str) (h : sep ∉ w) : Split sep w = [w] := by
  induction w with
  | nil => rfl
  | cons c w ih =>
    have hc : c ≠ sep := fun e => h (by simp [e])
    have hw : sep ∉ w := fun e => h (List.mem_cons_of_mem _ e)
    rw [Split, if_neg hc, ih hw]
    rfl

/-- The fields of a line made of the words `ws`, each preceded by one space. -/
theorem fields_spaced (ws : List Str) (hne : ∀ w ∈ ws, w ≠ [])
    (hns : ∀ w ∈ ws, ∀ c ∈ w, isSpace c = false) :
    Fields (ws.flatMap (fun w => ' ' :: w)) = ws ∧
    startsWord (ws.flatMap (fun w => ' ' :: w)) = false := by
  induction ws with
  | nil => exact ⟨rfl, rfl⟩
  | cons w ws ih =>
    have ih := ih (fun x hx => hne x (List.mem_cons_of_mem _ hx))
      (fun x hx => hns x (List.mem_cons_of_mem _ hx))
    refine ⟨?_, rfl⟩
    simp only [List.flatMap_cons, List.cons_append]
    rw [fields_space ' ' _ (by decide),
      fields_word w _ (hne w (List.mem_cons_self _ _)) (hns w (List.mem_cons_self _ _)) ih.2,
      ih.1]

/-! ## Faces: parsing and writing references (C3, C4) -/

theorem range_map_getD {α : Type} (l : List α) (d : α) :
    (List.range l.length).map (fun i => l.getD i d) = l := by
  induction l with
  | nil => rfl
  | cons x xs ih =>
    rw [List.length_cons, List.range_succ_eq_map, List.map_cons, List.map_map]
    simp only [List.getD_cons_zero]
    congr 1

theorem flatten_map_single {ι α : Type} (g : ι → α) (l : List ι) :
    (l.map (fun i => [g i])).flatten = l.map g := by
  induction l with
  | nil => rfl
  | cons x xs ih => simp [ih]

/-- The `f` line of a face without texture and normal indices. -/
theorem faceLine_vertices_only (vs : List Int) :
    faceLine ⟨vs, [], []⟩ = 'f' :: vs.flatMap (fun v => ' ' :: fmtInt (wrapInt (v + 1))) := by
  unfold faceLine
  have h : refChunks ⟨vs, [], []⟩ = fun i => [' ' :: fmtInt (wrapInt (vs.getD i 0 + 1))] := by
    funext i; simp [refChunks]
  rw [h]
  congr 1
  conv_rhs => rw [← range_map_getD vs 0]
  simp only [List.flatMap, List.map_map, Function.comp_def]
  rw [flatten_map_single (fun i => ' ' :: fmtInt (wrapInt (vs.getD i 0 + 1)))]

theorem parseRef_fmtInt (f : Face) (i : Int) (hlo : minInt ≤ i) (hhi : i ≤ maxInt) :
    parseRef f (fmtInt i) = .ok { f with Vertices := f.Vertices ++ [wrapInt (i - 1)] } := by
  unfold parseRef
  rw [split_no_sep '/' (fmtInt i) (fun h => (fmtInt_chars i _ h).2 rfl)]
  simp [atoi_fmtInt i hlo hhi]

theorem parseRefs_fmtInt (is : List Int) (f : Face) (hlo : ∀ i ∈ is, minInt ≤ i)
    (hhi : ∀ i ∈ is, i ≤ maxInt) :
    parseRefs f (is.map fmtInt)
      = .ok { f with Vertices := f.Vertices ++ is.map (fun i => wrapInt (i - 1)) } := by
  induction is generalizing f with
  | nil => simp [parseRefs]
  | cons i is ih =>
    rw [List.map_cons, parseRefs,
      parseRef_fmtInt f i (hlo i (List.mem_cons_self _ _)) (hhi i (List.mem_cons_self _ _))]
    simp only
    rw [ih _ (fun x hx => hlo x (List.mem_cons_of_mem _ hx))
      (fun x hx => hhi x (List.mem_cons_of_mem _ hx))]
    simp

theorem fields_intsLine (is : List Int) : Fields (intsLine is) = ['f'] :: is.map fmtInt := by
  have h := fields_spaced (is.map fmtInt)
    (by intro w hw; obtain ⟨i, _, rfl⟩ := List.mem_map.1 hw; exact fmtInt_ne_nil i)
    (by intro w hw c hc; obtain ⟨i, _, rfl⟩ := List.mem_map.1 hw; exact (fmtInt_chars i c hc).1)
  have hfm : (is.map fmtInt).flatMap (fun w => ' ' :: w) = is.flatMap (fun i => ' ' :: fmtInt i) := by
    simp [List.flatMap, List.map_map, Function.comp_def]
  rw [hfm] at h
  have h2 := fields_word ['f'] _ (by simp) (by decide) h.2
  rw [h.1] at h2
  simpa [intsLine] using h2

/-- Writing to a stream that never fails appends the strings in order. -/
theorem foldl_writeString (chunks : List Str) (sink : Sink) (hc : sink.capacity = none)
    (data : Str) :
    (chunks.foldl Writer.WriteString ⟨sink, data, false⟩).data = data ++ chunks.flatten ∧
    (chunks.foldl Writer.WriteString ⟨sink, data, false⟩).failed = false := by
  induction chunks generalizing data with
  | nil => simp
  | cons c cs ih =>
    have : Writer.WriteString ⟨sink, data, false⟩ c = ⟨sink, data ++ c, false⟩ := by
      simp [Writer.WriteString, hc]
    rw [List.foldl_cons, this]
    have := ih (data ++ c)
    simpa [List.append_assoc] using this

theorem faceChunks_flatten (f : Face) : (faceChunks f).flatten = faceLine f ++ ['\n'] := by
  simp [faceChunks, faceLine]

/-- C3 (the code at the failing input): the face read from `f 1//1 2//2 3//3` has normal
indices and no texture indices; `SaveToFile` writes it as `f 1/1 2/2 3/3`, and `parseFace`
reads that line back as a face with texture indices and no normal indices, which is a
different face. -/
theorem normals_only_face_not_restored :
    parseFace "f 1//1 2//2 3//3".toList = .ok ⟨[0, 1, 2], [], [0, 1, 2]⟩ ∧
    faceLine ⟨[0, 1, 2], [], [0, 1, 2]⟩ = "f 1/1 2/2 3/3".toList ∧
    (B.SaveToFile fmtInt ⟨false, none⟩
      { (B.Model.empty : B.Model Int) with Faces := [⟨[0, 1, 2], [], [0, 1, 2]⟩] }).2
      = "# Parsed .obj file\n\n# Vertices\n\n# Faces\nf 1/1 2/2 3/3\n".toList ∧
    parseFace (faceLine ⟨[0, 1, 2], [], [0, 1, 2]⟩) = .ok ⟨[0, 1, 2], [0, 1, 2], []⟩ ∧
    parseFace (faceLine ⟨[0, 1, 2], [], [0, 1, 2]⟩) ≠ .ok ⟨[0, 1, 2], [], [0, 1, 2]⟩ := by
  refine ⟨by decide, by decide, by decide, by decide, by decide⟩

/-- C4 (as the code behaves): for every non-empty list of integers that are all at least
1 and at most the largest `int`, `parseFace` on the line `f i1 ... in` succeeds with the
vertex indices `i1-1, ..., in-1` and no texture or normal indices, and `SaveToFile`
writes that face back as the line `f i1 ... in`; `f 1 2 3` parses to `0, 1, 2` and
is written as `f 1 2 3`. -/
theorem face_indices_rebiased {F : Type} [Zero F] (fmtF : F → Str) (is : List Int)
    (_hne : is ≠ []) (h1 : ∀ i ∈ is, 1 ≤ i) (hmax : ∀ i ∈ is, i ≤ maxInt) :
    parseFace (intsLine is) = .ok ⟨is.map (fun i => i - 1), [], []⟩ ∧
    faceLine ⟨is.map (fun i => i - 1), [], []⟩ = intsLine is ∧
    B.SaveToFile fmtF ⟨false, none⟩
      { (B.Model.empty : B.Model F) with Faces := [⟨is.map (fun i => i - 1), [], []⟩] }
      = (none, "# Parsed .obj file\n\n# Vertices\n\n# Faces\n".toList ++ intsLine is ++ ['\n']) ∧
    intsLine [1, 2, 3] = "f 1 2 3".toList ∧
    parseFace "f 1 2 3".toList = .ok ⟨[0, 1, 2], [], []⟩ ∧
    faceLine ⟨[0, 1, 2], [], []⟩ = "f 1 2 3".toList := by
  have hlo : ∀ i ∈ is, minInt ≤ i := fun i hi => by
    have := h1 i hi; unfold minInt; omega
  have hw : is.map (fun i => wrapInt (i - 1)) = is.map (fun i => i - 1) := by
    apply List.map_congr_left
    intro i hi
    have := h1 i hi; have := hmax i hi
    apply wrapInt_of_range <;> unfold minInt maxInt at * <;> omega
  have hline : faceLine ⟨is.map (fun i => i - 1), [], []⟩ = intsLine is := by
    rw [faceLine_vertices_only, intsLine]
    congr 1
    simp only [List.flatMap, List.map_map, Function.comp_def]
    congr 1
    apply List.map_congr_left
    intro i hi
    have := h1 i hi; have := hmax i hi
    rw [wrapInt_of_range] <;> unfold minInt maxInt at * <;> simp <;> omega
  refine ⟨?_, hline, ?_, by decide, by decide, by decide⟩
  · unfold parseFace
    rw [fields_intsLine]
    simp only [sliceFrom1]
    rw [parseRefs_fmtInt is _ hlo hmax, hw]
    simp
  · have hchunks : B.saveChunks fmtF
        { (B.Model.empty : B.Model F) with Faces := [⟨is.map (fun i => i - 1), [], []⟩] }
        = ["# Parsed .obj file\n\n".toList, "# Vertices\n".toList, "\n# Faces\n".toList]
          ++ faceChunks ⟨is.map (fun i => i - 1), [], []⟩ := by
      simp [B.saveChunks, B.Model.empty, texChunks, normalChunks, facesChunks]
    unfold B.SaveToFile
    simp only [Bool.false_eq_true, if_false]
    rw [(foldl_writeString _ ⟨false, none⟩ rfl []).1, hchunks, List.flatten_append,
      faceChunks_flatten, hline]
    simp

/-- C4, witness: the list `1, 2, 3`. -/
theorem face_indices_rebiased_witness :
    parseFace (intsLine [1, 2, 3]) = .ok ⟨[1, 2, 3].map (fun i => i - 1), [], []⟩ ∧
    faceLine ⟨[1, 2, 3].map (fun i => i - 1), [], []⟩ = intsLine [1, 2, 3] :=
  ⟨(face_indices_rebiased fmtInt [1, 2, 3] (by decide) (by decide) (by decide)).1,
   (face_indices_rebiased fmtInt [1, 2, 3] (by decide) (by decide) (by decide)).2.1⟩

/-- C4, counterexample: 9223372036854775808 is an integer that is at least 1, but
`parseFace` fails on the line `f 9223372036854775808`, because `strconv.Atoi` rejects a
number that does not fit an `int`. -/
theorem face_index_beyond_int_rejected :
    (∀ i ∈ [(9223372036854775808 : Int)], 1 ≤ i) ∧
    intsLine [9223372036854775808] = "f 9223372036854775808".toList ∧
    parseFace (intsLine [9223372036854775808]) = .error (.invalidField 0) := by
  refine ⟨by decide, by decide, by decide⟩

/-! ## Where the face round trip does hold -/

theorem split_at_sep (sep : Char) (a rest : Str) (h : sep ∉ a) :
    Split sep (a ++ sep :: rest) = a :: Split sep rest := by
  induction a with
  | nil => simp [Split]
  | cons c a ih =>
    have hc : c ≠ sep := fun e => h (by simp [e])
    have ha : sep ∉ a := fun e => h (List.mem_cons_of_mem _ e)
    rw [List.cons_append, Split, if_neg hc, ih ha]
    rfl

theorem wrapInt_succ_pred (x : Int) (hlo : minInt ≤ x) (hhi : x ≤ maxInt) :
    wrapInt (wrapInt (x + 1) - 1) = x := by
  unfold wrapInt
  unfold minInt at hlo
  unfold maxInt at hhi
  omega

theorem atoi_fmtInt_wrap (x : Int) : Atoi (fmtInt (wrapInt x)) = some (wrapInt x) :=
  atoi_fmtInt _ (wrapInt_range x).1 (wrapInt_range x).2

theorem fmtInt_no_slash (i : Int) : '/' ∉ fmtInt i := fun h => (fmtInt_chars i _ h).2 rfl

/-- Reading one written reference: the vertex index comes back, and so do the texture
index and the normal index, provided a normal index comes with a texture index. -/
theorem parseRef_refWord (acc : Face) (v : Int) (t n : Option Int)
    (hv : minInt ≤ v ∧ v ≤ maxInt) (ht : ∀ x, t = some x → minInt ≤ x ∧ x ≤ maxInt)
    (hn : ∀ x, n = some x → minInt ≤ x ∧ x ≤ maxInt) (hshape : t = none → n = none) :
    parseRef acc (refWord v t n)
      = .ok ⟨acc.Vertices ++ [v], acc.TexCoords ++ t.toList, acc.Normals ++ n.toList⟩ := by
  unfold parseRef refWord
  cases t with
  | none =>
    have : n = none := hshape rfl
    subst this
    simp only [List.append_nil]
    rw [split_no_sep '/' _ (fmtInt_no_slash _)]
    simp [atoi_fmtInt_wrap, wrapInt_succ_pred v hv.1 hv.2]
  | some t =>
    have htr := ht t rfl
    cases n with
    | none =>
      simp only [List.append_nil]
      rw [split_at_sep '/' _ _ (fmtInt_no_slash _), split_no_sep '/' _ (fmtInt_no_slash _)]
      simp [atoi_fmtInt_wrap, wrapInt_succ_pred v hv.1 hv.2, wrapInt_succ_pred t htr.1 htr.2,
        fmtInt_ne_nil]
    | some n =>
      have hnr := hn n rfl
      simp only [List.append_assoc, List.cons_append]
      rw [split_at_sep '/' _ _ (fmtInt_no_slash _), split_at_sep '/' _ _ (fmtInt_no_slash _),
        split_no_sep '/' _ (fmtInt_no_slash _)]
      simp [atoi_fmtInt_wrap, wrapInt_succ_pred v hv.1 hv.2, wrapInt_succ_pred t htr.1 htr.2,
        wrapInt_succ_pred n hnr.1 hnr.2, fmtInt_ne_nil]

theorem parseRefs_refWords (vs : List Int) :
    ∀ (ts ns : List Int) (acc : Face),
      ns.length ≤ ts.length → ts.length ≤ vs.length →
      (∀ x ∈ vs ++ ts ++ ns, minInt ≤ x ∧ x ≤ maxInt) →
      parseRefs acc (refWords vs ts ns)
        = .ok ⟨acc.Vertices ++ vs, acc.TexCoords ++ ts, acc.Normals ++ ns⟩ := by
  induction vs with
  | nil =>
    intro ts ns acc h1 h2 _
    have ht : ts = [] := List.eq_nil_of_length_eq_zero (by simpa using h2)
    subst ht
    have hn : ns = [] := List.eq_nil_of_length_eq_zero (by simpa using h1)
    subst hn
    simp [refWords, parseRefs]
  | cons v vs ih =>
    intro ts ns acc h1 h2 hr
    rw [refWords, parseRefs]
    have hstep := parseRef_refWord acc v ts.head? ns.head? (hr v (by simp))
      (by
        intro x hx
        exact hr x (by
          have := List.mem_of_mem_head? hx
          simp [this]))
      (by
        intro x hx
        exact hr x (by
          have := List.mem_of_mem_head? hx
          simp [this]))
      (by
        intro h
        cases ts with
        | nil =>
          have hn : ns = [] := List.eq_nil_of_length_eq_zero (by simpa using h1)
          rw [hn]; rfl
        | cons t ts => simp at h)
    rw [hstep]
    simp only
    rw [ih ts.tail ns.tail _ (by simp; omega) (by simp at h2 ⊢; omega)
      (by
        intro x hx
        apply hr x
        simp only [List.mem_append, List.mem_cons] at hx ⊢
        rcases hx with (hx | hx) | hx
        · exact Or.inl (Or.inl (Or.inr hx))
        · exact Or.inl (Or.inr (List.mem_of_mem_tail hx))
        · exact Or.inr (List.mem_of_mem_tail hx))]
    cases ts <;> cases ns <;> simp

theorem refChunks_flatten_zero (v : Int) (vs ts ns : List Int) :
    (refChunks ⟨v :: vs, ts, ns⟩ 0).flatten = ' ' :: refWord v ts.head? ns.head? := by
  cases ts <;> cases ns <;> simp [refChunks, refWord]

theorem refChunks_succ (v : Int) (vs ts ns : List Int) (i : Nat) :
    refChunks ⟨v :: vs, ts, ns⟩ (i + 1) = refChunks ⟨vs, ts.tail, ns.tail⟩ i := by
  cases ts <;> cases ns <;> simp [refChunks]

/-- The `f` line of a face is the prefix and its corner references, one space before
each. -/
theorem faceLine_refWords (vs ts ns : List Int) :
    faceLine ⟨vs, ts, ns⟩ = 'f' :: (refWords vs ts ns).flatMap (fun w => ' ' :: w) := by
  unfold faceLine
  congr 1
  induction vs generalizing ts ns with
  | nil => rfl
  | cons v vs ih =>
    simp only [List.length_cons, List.range_succ_eq_map, List.flatMap_cons, List.flatten_append,
      refChunks_flatten_zero, refWords, List.cons_append]
    congr 1
    have : (List.map Nat.succ (List.range vs.length)).flatMap (refChunks ⟨v :: vs, ts, ns⟩)
        = (List.range vs.length).flatMap (refChunks ⟨vs, ts.tail, ns.tail⟩) := by
      simp only [List.flatMap, List.map_map, Function.comp_def, Nat.succ_eq_add_one,
        refChunks_succ]
    have ih1 := ih ts.tail ns.tail
    simp only at ih1
    rw [this, ih1]

theorem refWord_ne_nil (v : Int) (t n : Option Int) : refWord v t n ≠ [] := by
  unfold refWord
  have := fmtInt_ne_nil (wrapInt (v + 1))
  cases h : fmtInt (wrapInt (v + 1)) with
  | nil => exact absurd h this
  | cons c cs => simp

theorem refWord_no_space (v : Int) (t n : Option Int) (c : Char) (hc : c ∈ refWord v t n) :
    isSpace c = false := by
  unfold refWord at hc
  simp only [List.mem_append] at hc
  rcases hc with (hc | hc) | hc
  · exact (fmtInt_chars _ c hc).1
  · cases t with
    | none => simp at hc
    | some t =>
      rcases List.mem_cons.1 hc with rfl | hc
      · decide
      · exact (fmtInt_chars _ c hc).1
  · cases n with
    | none => simp at hc
    | some n =>
      rcases List.mem_cons.1 hc with rfl | hc
      · decide
      · exact (fmtInt_chars _ c hc).1

theorem refWords_wellformed (vs ts ns : List Int) :
    ∀ w ∈ refWords vs ts ns, w ≠ [] ∧ ∀ c ∈ w, isSpace c = false := by
  induction vs generalizing ts ns with
  | nil => simp [refWords]
  | cons v vs ih =>
    intro w hw
    rw [refWords] at hw
    rcases List.mem_cons.1 hw with rfl | hw
    · exact ⟨refWord_ne_nil _ _ _, refWord_no_space _ _ _⟩
    · exact ih _ _ w hw

/-- Where the round trip of C3 does hold: a face with no more normal indices than texture
indices and no more texture indices than vertex indices (in particular a face without
attributes, with texture indices only, or with both) is read back unchanged from the `f`
line `SaveToFile` writes for it. -/
theorem face_roundtrip_when_texture_covers_normals (f : Face)
    (h1 : f.Normals.length ≤ f.TexCoords.length) (h2 : f.TexCoords.length ≤ f.Vertices.length)
    (hr : ∀ x ∈ f.Vertices ++ f.TexCoords ++ f.Normals, minInt ≤ x ∧ x ≤ maxInt) :
    parseFace (faceLine f) = .ok f := by
  obtain ⟨vs, ts, ns⟩ := f
  simp only at h1 h2 hr
  have hw := refWords_wellformed vs ts ns
  have hf := fields_spaced (refWords vs ts ns) (fun w hw1 => (hw w hw1).1)
    (fun w hw1 => (hw w hw1).2)
  have h3 := fields_word ['f'] _ (by simp) (by decide) hf.2
  rw [hf.1] at h3
  unfold parseFace
  rw [faceLine_refWords]
  simp only [List.singleton_append] at h3
  rw [h3]
  simp only [sliceFrom1]
  rw [parseRefs_refWords vs ts ns ⟨[], [], []⟩ h1 h2 hr]
  simp

/-- A face with vertex, texture and normal indices `0, 1, 2` is read back unchanged. -/
theorem face_roundtrip_full_witness :
    parseFace (faceLine ⟨[0, 1, 2], [0, 1, 2], [0, 1, 2]⟩)
      = .ok ⟨[0, 1, 2], [0, 1, 2], [0, 1, 2]⟩ :=
  face_roundtrip_when_texture_covers_normals ⟨[0, 1, 2], [0, 1, 2], [0, 1, 2]⟩
    (by decide) (by decide) (by decide)

/-! ## The adjacency map of `ConvertLinesToFaces` -/

theorem mapGet_mapAppend (mp : List (Int × List Int)) (k v x : Int) :
    mapGet (mapAppend mp k v) x = if x = k then mapGet mp k ++ [v] else mapGet mp x := by
  induction mp with
  | nil =>
    by_cases h : x = k
    · subst h; simp [mapAppend, mapGet]
    · have h2 : ¬ k = x := fun e => h e.symm
      simp [mapAppend, mapGet, h, h2]
  | cons p rest ih =>
    obtain ⟨k1, l⟩ := p
    by_cases h1 : k1 = k
    · subst h1
      by_cases h : x = k1
      · subst h; simp [mapAppend, mapGet]
      · have h2 : ¬ k1 = x := fun e => h e.symm
        simp [mapAppend, mapGet, h, h2]
    · by_cases h : x = k
      · subst h
        simp [mapAppend, mapGet, h1, ih]
      · by_cases h3 : k1 = x
        · simp [mapAppend, mapGet, h1, h, h3]
        · simp [mapAppend, mapGet, h1, h, h3, ih]

theorem mapGet_foldl (lines : List Line) (mp : List (Int × List Int)) (x : Int) :
    mapGet (lines.foldl (fun mp line =>
        mapAppend (mapAppend mp line.Start line.End) line.End line.Start) mp) x
      = mapGet mp x ++ neighbours lines x := by
  induction lines generalizing mp with
  | nil => simp [neighbours]
  | cons l ls ih =>
    rw [List.foldl_cons, ih]
    simp only [neighbours, List.flatMap_cons, lineNeighbours]
    simp only [mapGet_mapAppend]
    by_cases h1 : l.Start = x <;> by_cases h2 : l.End = x
    · have e1 : x = l.End := h2.symm
      subst e1
      simp [h1, List.append_assoc]
    · have n1 : ¬ x = l.End := fun e => h2 e.symm
      subst h1
      simp [h2, n1, List.append_assoc]
    · have n2 : ¬ x = l.Start := fun e => h1 e.symm
      subst h2
      simp [h1, n2, List.append_assoc]
    · have n1 : ¬ x = l.End := fun e => h2 e.symm
      have n2 : ¬ x = l.Start := fun e => h1 e.symm
      simp [h1, h2, n1, n2]

/-- The adjacency map holds, for every vertex, its neighbours in segment order. -/
theorem mapGet_buildLineMap (lines : List Line) (x : Int) :
    mapGet (buildLineMap lines) x = neighbours lines x := by
  unfold buildLineMap
  rw [mapGet_foldl]
  simp [mapGet]

theorem mem_neighbours (lines : List Line) (x n : Int) :
    n ∈ neighbours lines x ↔ joined lines x n = true := by
  simp only [neighbours, List.mem_flatMap, lineNeighbours, joined, List.any_eq_true,
    Bool.or_eq_true, Bool.and_eq_true, beq_iff_eq]
  constructor
  · rintro ⟨l, hl, hn⟩
    refine ⟨l, hl, ?_⟩
    rcases List.mem_append.1 hn with h | h
    · by_cases hs : l.Start = x
      · simp [hs] at h; exact Or.inl ⟨hs, h.symm⟩
      · simp [hs] at h
    · by_cases he : l.End = x
      · simp [he] at h; exact Or.inr ⟨h.symm, he⟩
      · simp [he] at h
  · rintro ⟨l, hl, h | h⟩
    · exact ⟨l, hl, List.mem_append.2 (Or.inl (by simp [h.1, h.2]))⟩
    · exact ⟨l, hl, List.mem_append.2 (Or.inr (by simp [h.1, h.2]))⟩

theorem neighbours_mem_endpoints (lines : List Line) (x n : Int) (h : n ∈ neighbours lines x) :
    n ∈ endpoints lines := by
  simp only [neighbours, List.mem_flatMap, lineNeighbours] at h
  obtain ⟨l, hl, hn⟩ := h
  simp only [endpoints, List.mem_flatMap]
  refine ⟨l, hl, ?_⟩
  rcases List.mem_append.1 hn with h | h
  · by_cases hs : l.Start = x
    · simp [hs] at h; simp [h]
    · simp [hs] at h
  · by_cases he : l.End = x
    · simp [he] at h; simp [h]
    · simp [he] at h

theorem endpoints_length (lines : List Line) : (endpoints lines).length = 2 * lines.length := by
  induction lines with
  | nil => rfl
  | cons l ls ih => simp [endpoints, List.flatMap_cons] at ih ⊢; omega

/-! ## The neighbour scan and the inner loop -/

theorem firstUnvisited_spec (visited l : List Int) :
    firstUnvisited visited l = -1 ∨
      (firstUnvisited visited l ∈ l ∧ firstUnvisited visited l ∉ visited) := by
  induction l with
  | nil => left; rfl
  | cons n rest ih =>
    rw [firstUnvisited]
    split
    · rcases ih with h | h
      · exact Or.inl h
      · exact Or.inr ⟨List.mem_cons_of_mem _ h.1, h.2⟩
    · rename_i hn
      exact Or.inr ⟨List.mem_cons_self _ _, hn⟩

theorem firstUnvisited_all_visited (visited l : List Int) (h : ∀ x ∈ l, x ∈ visited) :
    firstUnvisited visited l = -1 := by
  induction l with
  | nil => rfl
  | cons n rest ih =>
    rw [firstUnvisited, if_pos (h n (List.mem_cons_self _ _))]
    exact ih (fun x hx => h x (List.mem_cons_of_mem _ hx))

theorem firstUnvisited_unique (visited l : List Int) (q : Int)
    (h : ∀ x ∈ l, x ∈ visited ∨ x = q) (hq : q ∈ l) (hv : q ∉ visited) :
    firstUnvisited visited l = q := by
  induction l with
  | nil => simp at hq
  | cons n rest ih =>
    rw [firstUnvisited]
    split
    · rename_i hn
      apply ih (fun x hx => h x (List.mem_cons_of_mem _ hx))
      rcases List.mem_cons.1 hq with e | e
      · subst e; exact absurd hn hv
      · exact e
    · rename_i hn
      rcases h n (List.mem_cons_self _ _) with e | e
      · exact absurd e hn
      · exact e

theorem unvisitedCount_le (pool visited : List Int) :
    unvisitedCount pool visited ≤ pool.length := by
  unfold unvisitedCount
  exact List.length_filter_le _ _

theorem unvisitedCount_cons_lt (pool visited : List Int) (x : Int)
    (hx : x ∈ pool) (hv : x ∉ visited) :
    unvisitedCount pool (x :: visited) < unvisitedCount pool visited := by
  unfold unvisitedCount
  induction pool with
  | nil => simp at hx
  | cons u us ih =>
    have hmono : (us.filter (fun y => decide (y ∉ x :: visited))).length
        ≤ (us.filter (fun y => decide (y ∉ visited))).length := by
      apply List.Sublist.length_le
      apply List.monotone_filter_right
      intro y
      simp only [decide_eq_true_eq, List.mem_cons, not_or]
      exact fun h => h.2
    by_cases hu : u = x
    · subst hu
      rw [List.filter_cons_of_neg (by simp), List.filter_cons_of_pos (by simpa using hv)]
      simp only [List.length_cons]
      omega
    · rcases List.mem_cons.1 hx with e | e
      · exact absurd e.symm hu
      · have := ih e
        by_cases huv : u ∈ visited
        · rw [List.filter_cons_of_neg (by simp [huv]), List.filter_cons_of_neg (by simp [huv])]
          exact this
        · rw [List.filter_cons_of_pos (by simp [huv, hu]),
            List.filter_cons_of_pos (by simp [huv])]
          simp only [List.length_cons]
          omega

/-- The inner loop terminates: with more fuel than unvisited end points it returns. -/
theorem walk_total (lineMap : List (Int × List Int)) (pool : List Int) (start : Int)
    (hpool : ∀ x n, n ∈ mapGet lineMap x → n ∈ pool) :
    ∀ (fuel : Nat) (current : Int) (face visited : List Int),
      unvisitedCount pool (current :: visited) < fuel →
      ∃ r, walk lineMap start fuel current face visited = some r := by
  intro fuel
  induction fuel with
  | zero => intro _ _ _ h; omega
  | succ fuel ih =>
    intro current face visited h
    rw [walk]
    split
    · exact ⟨_, rfl⟩
    · split
      · exact ⟨_, rfl⟩
      · rename_i hne _
        rcases firstUnvisited_spec (current :: visited) (mapGet lineMap current) with h1 | ⟨h1, h2⟩
        · exact absurd h1 hne
        · apply ih
          have := unvisitedCount_cons_lt pool (current :: visited) _ (hpool _ _ h1) h2
          omega

/-- What the inner loop returns: the face grows by a path that starts at `current`,
follows adjacency lists, and consists of vertices that were not visited before; exactly
these vertices become visited. -/
theorem walk_path (lineMap : List (Int × List Int)) (start : Int) :
    ∀ (fuel : Nat) (current : Int) (face visited face1 visited1 : List Int),
      walk lineMap start fuel current face visited = some (face1, visited1) →
      ∃ path, face1 = face ++ current :: path ∧
        visited1 = path.reverse ++ current :: visited ∧
        List.Chain (fun a b => b ∈ mapGet lineMap a) current path ∧
        path.Nodup ∧ ∀ x ∈ path, x ∉ current :: visited := by
  intro fuel
  induction fuel with
  | zero => intro _ _ _ _ _ h; simp [walk] at h
  | succ fuel ih =>
    intro current face visited face1 visited1 h
    rw [walk] at h
    split at h
    · injection h with h; injection h with h1 h2
      exact ⟨[], by simp [← h1], by simp [← h2], List.Chain.nil, List.nodup_nil, by simp⟩
    · split at h
      · injection h with h; injection h with h1 h2
        exact ⟨[], by simp [← h1], by simp [← h2], List.Chain.nil, List.nodup_nil, by simp⟩
      · rename_i hne _
        rcases firstUnvisited_spec (current :: visited) (mapGet lineMap current) with e | ⟨hm, hv⟩
        · exact absurd e hne
        · obtain ⟨path, hf, hvis, hch, hnd, hnot⟩ := ih _ _ _ _ _ h
          refine ⟨firstUnvisited (current :: visited) (mapGet lineMap current) :: path,
            by simp [hf], by simp [hvis], List.Chain.cons hm hch, ?_, ?_⟩
          · rw [List.nodup_cons]
            exact ⟨fun hx => (hnot _ hx) (List.mem_cons_self _ _), hnd⟩
          · intro x hx
            rcases List.mem_cons.1 hx with rfl | hx
            · exact hv
            · exact fun hc => hnot x hx (List.mem_cons_of_mem _ hc)

/-- The outer loop terminates when the fuel exceeds the number of end points. -/
theorem outer_total (lineMap : List (Int × List Int)) (pool : List Int) (fuel : Nat)
    (hpool : ∀ x n, n ∈ mapGet lineMap x → n ∈ pool) (hfuel : pool.length < fuel) :
    ∀ (order : List Int) (faces : List Face) (visited : List Int),
      ∃ faces1, outer lineMap fuel order faces visited = some faces1 := by
  intro order
  induction order with
  | nil => intro faces _; exact ⟨faces, rfl⟩
  | cons start rest ih =>
    intro faces visited
    rw [outer]
    split
    · exact ih _ _
    · obtain ⟨r, hr⟩ := walk_total lineMap pool start hpool fuel start [] visited
        (lt_of_le_of_lt (unvisitedCount_le _ _) hfuel)
      rw [hr]
      exact ih _ _

/-- Every face the outer loop appends was built by the inner loop from unvisited
vertices. -/
theorem outer_spec (lineMap : List (Int × List Int)) (fuel : Nat) :
    ∀ (order : List Int) (faces : List Face) (visited : List Int) (faces1 : List Face),
      outer lineMap fuel order faces visited = some faces1 →
      ∃ app, faces1 = faces ++ app ∧ ∀ f ∈ app, WalkedFace lineMap f := by
  intro order
  induction order with
  | nil =>
    intro faces _ faces1 h
    simp only [outer, Option.some.injEq] at h
    exact ⟨[], by simp [h], by simp⟩
  | cons start rest ih =>
    intro faces visited faces1 h
    rw [outer] at h
    split at h
    · exact ih _ _ _ h
    · rename_i hstart
      cases hw : walk lineMap start fuel start [] visited with
      | none => rw [hw] at h; simp at h
      | some r =>
        obtain ⟨face, visited1⟩ := r
        rw [hw] at h
        simp only at h
        obtain ⟨path, hf, _, hch, hnd, hnot⟩ := walk_path lineMap start fuel start [] visited _ _ hw
        obtain ⟨app, happ, hgood⟩ := ih _ _ _ h
        by_cases hlen : face.length > 2
        · simp only [hlen, if_true] at happ
          refine ⟨⟨face, [], []⟩ :: app, by simp [happ], ?_⟩
          intro f hfm
          rcases List.mem_cons.1 hfm with rfl | hfm
          · refine ⟨rfl, rfl, hlen, ?_, ?_⟩
            · simp only [hf, List.nil_append, List.nodup_cons]
              exact ⟨fun hx => (hnot _ hx) (List.mem_cons_self _ _), hnd⟩
            · simpa [hf, List.Chain'] using hch
          · exact hgood f hfm
        · simp only [hlen, if_false] at happ
          exact ⟨app, happ, hgood⟩

/-- `ConvertLinesToFaces` always returns, keeps the faces that were there, and appends
only faces built by the inner loop. -/
theorem convert_spec {F : Type} (order : List Int) (m : Model F) :
    ∃ app, ConvertLinesToFaces order m = some { m with Faces := m.Faces ++ app } ∧
      ∀ f ∈ app, WalkedFace (buildLineMap m.Lines) f := by
  have hpool : ∀ x n, n ∈ mapGet (buildLineMap m.Lines) x → n ∈ endpoints m.Lines := by
    intro x n h
    rw [mapGet_buildLineMap] at h
    exact neighbours_mem_endpoints _ _ _ h
  obtain ⟨faces1, h1⟩ := outer_total (buildLineMap m.Lines) (endpoints m.Lines)
    (2 * m.Lines.length + 1) hpool (by rw [endpoints_length]; omega) order m.Faces []
  obtain ⟨app, happ, hgood⟩ := outer_spec _ _ _ _ _ _ h1
  refine ⟨app, ?_, hgood⟩
  unfold ConvertLinesToFaces
  rw [h1, happ]

theorem chain_consecutiveJoined (lines : List Line) (vs : List Int)
    (h : List.Chain' (fun a b => b ∈ mapGet (buildLineMap lines) a) vs) :
    consecutiveJoined lines vs = true := by
  induction vs with
  | nil => rfl
  | cons a rest ih =>
    cases rest with
    | nil => rfl
    | cons b rest =>
      rw [List.chain'_cons] at h
      rw [consecutiveJoined, Bool.and_eq_true]
      refine ⟨?_, ih h.2⟩
      rw [← mem_neighbours, ← mapGet_buildLineMap]
      exact h.1

/-! ## A simple cycle is reconstructed as one face (C5) -/

theorem lineNeighbours_normalize (x : Int) (l : Line) :
    (lineNeighbours x (normalize l)).Perm (lineNeighbours x l) := by
  unfold normalize
  split
  · exact List.Perm.refl _
  · simp only [lineNeighbours]
    exact List.perm_append_comm

theorem neighbours_map_normalize (lines : List Line) (x : Int) :
    (neighbours (lines.map normalize) x).Perm (neighbours lines x) := by
  induction lines with
  | nil => exact List.Perm.refl _
  | cons l ls ih =>
    simp only [neighbours, List.map_cons, List.flatMap_cons] at ih ⊢
    exact List.Perm.append (lineNeighbours_normalize x l) ih

/-- The adjacency list of a vertex is, up to order, the one of the cycle. -/
theorem neighbours_of_cycle (lines : List Line) (c : List Int) (x : Int)
    (h : IsCycleOf lines c) :
    (neighbours lines x).Perm (neighbours (cycleEdges c) x) := by
  have h1 := (neighbours_map_normalize lines x).symm
  have h2 : (neighbours (lines.map normalize) x).Perm
      (neighbours ((cycleEdges c).map normalize) x) :=
    List.Perm.flatMap_right _ h
  exact (h1.trans h2).trans (neighbours_map_normalize _ x)

theorem pairs_append (l1 : List Int) (a : Int) (l2 : List Int) :
    pairs (l1 ++ a :: l2) = pairs (l1 ++ [a]) ++ pairs (a :: l2) := by
  induction l1 with
  | nil => simp [pairs]
  | cons b l1 ih =>
    cases l1 with
    | nil => simp [pairs]
    | cons d l1 =>
      have e : pairs (b :: d :: l1 ++ a :: l2) = ⟨b, d⟩ :: pairs (d :: l1 ++ a :: l2) := rfl
      have e2 : pairs (b :: d :: l1 ++ [a]) = ⟨b, d⟩ :: pairs (d :: l1 ++ [a]) := rfl
      rw [e, e2, ih]
      rfl

theorem neighbours_append (l1 l2 : List Line) (x : Int) :
    neighbours (l1 ++ l2) x = neighbours l1 x ++ neighbours l2 x := by
  simp [neighbours]

theorem neighbours_pairs_not_mem (l : List Int) (x : Int) (h : x ∉ l) :
    neighbours (pairs l) x = [] := by
  induction l with
  | nil => rfl
  | cons a l ih =>
    cases l with
    | nil => rfl
    | cons b l =>
      have ha : ¬ a = x := fun e => h (by simp [e])
      have hb : ¬ b = x := fun e => h (by simp [e])
      have := ih (fun hx => h (List.mem_cons_of_mem _ hx))
      simp only [neighbours, pairs, List.flatMap_cons, lineNeighbours] at this ⊢
      simp [ha, hb, this]

/-- In the path that starts at `a` the only neighbour of `a` is the next vertex. -/
theorem neighbours_pairs_head (a b : Int) (l : List Int) (h : a ∉ b :: l) :
    neighbours (pairs (a :: b :: l)) a = [b] := by
  have hb : ¬ b = a := fun e => h (by simp [e])
  have := neighbours_pairs_not_mem (b :: l) a h
  simp only [neighbours, pairs, List.flatMap_cons, lineNeighbours] at this ⊢
  simp [hb, this]

/-- In the path that ends at `a` the only neighbour of `a` is the vertex before it. -/
theorem neighbours_pairs_last (l : List Int) (p a : Int) (h : a ∉ l ++ [p]) :
    neighbours (pairs (l ++ [p, a])) a = [p] := by
  have hp : ¬ p = a := fun e => h (by simp [e])
  have h1 : pairs (l ++ [p, a]) = pairs (l ++ [p]) ++ pairs [p, a] := pairs_append l p [a]
  rw [h1, neighbours_append, neighbours_pairs_not_mem _ a h]
  simp [neighbours, pairs, lineNeighbours, hp]

/-- The adjacency list of a vertex of the cycle holds, in some order, the vertex before
it and the vertex after it (cyclically). -/
theorem neighbours_cycle_vertex (lines : List Line) (pre post : List Int) (cur p q : Int)
    (hc : IsCycleOf lines (pre ++ cur :: post)) (hnd : (pre ++ cur :: post).Nodup)
    (hp : (post ++ pre).getLast? = some p) (hq : (post ++ pre).head? = some q) :
    (neighbours lines cur).Perm [p, q] := by
  refine (neighbours_of_cycle lines _ cur hc).trans ?_
  have hcur_pre : cur ∉ pre := by
    intro hx
    have := List.nodup_append.1 hnd
    exact this.2.2 hx (List.mem_cons_self _ _)
  have hcur_post : cur ∉ post := by
    have := List.nodup_append.1 hnd
    exact (List.nodup_cons.1 this.2.1).1
  unfold cycleEdges
  cases pre with
  | nil =>
    -- the cycle list is `cur :: post ++ [cur]`
    simp only [List.nil_append, List.append_nil] at hp hq ⊢
    cases post with
    | nil => simp at hq
    | cons b post' =>
      simp only [List.head?_cons, Option.some.injEq] at hq
      subst hq
      obtain ⟨init, hinit⟩ : ∃ init, b :: post' = init ++ [p] := by
        have hne : b :: post' ≠ [] := by simp
        refine ⟨(b :: post').dropLast, ?_⟩
        have h1 := List.dropLast_append_getLast hne
        have h2 : (b :: post').getLast hne = p := by
          have := List.getLast?_eq_getLast (b :: post') hne
          rw [hp] at this
          exact (Option.some.inj this).symm
        rw [h2] at h1
        exact h1.symm
      have hL : (cur :: b :: post') ++ List.take 1 (cur :: b :: post')
          = cur :: b :: (post' ++ [cur]) := by simp
      rw [hL]
      have hsplit : pairs (cur :: b :: (post' ++ [cur]))
          = ⟨cur, b⟩ :: pairs (b :: (post' ++ [cur])) := rfl
      have hb : ¬ b = cur := fun e => hcur_post (by simp [e])
      have htail : neighbours (pairs (b :: (post' ++ [cur]))) cur = [p] := by
        have e : b :: (post' ++ [cur]) = init ++ [p, cur] := by
          rw [← List.cons_append, hinit]; simp
        rw [e]
        apply neighbours_pairs_last
        rw [← hinit]
        exact hcur_post
      rw [hsplit]
      have : neighbours (⟨cur, b⟩ :: pairs (b :: (post' ++ [cur]))) cur = [b, p] := by
        have h0 : neighbours (⟨cur, b⟩ :: pairs (b :: (post' ++ [cur]))) cur
            = lineNeighbours cur ⟨cur, b⟩ ++ neighbours (pairs (b :: (post' ++ [cur]))) cur := by
          simp [neighbours]
        rw [h0, htail]
        simp [lineNeighbours, hb]
      rw [this]
      exact List.Perm.swap _ _ _
  | cons h pre' =>
    -- the cycle list is `h :: pre' ++ cur :: post ++ [h]`
    have hne : h :: pre' ≠ [] := by simp
    have hp1 : (h :: pre').getLast? = some p := by
      rw [List.getLast?_append] at hp
      rw [List.getLast?_eq_getLast _ hne] at hp ⊢
      simpa using hp
    obtain ⟨init, hinit⟩ : ∃ init, h :: pre' = init ++ [p] := by
      refine ⟨(h :: pre').dropLast, ?_⟩
      have h1 := List.dropLast_append_getLast hne
      have h2 : (h :: pre').getLast hne = p := by
        have := List.getLast?_eq_getLast (h :: pre') hne
        rw [hp1] at this
        exact (Option.some.inj this).symm
      rw [h2] at h1
      exact h1.symm
    have hq1 : ∃ rest, post ++ [h] = q :: rest := by
      cases post with
      | nil =>
        simp only [List.nil_append, List.head?_cons, Option.some.injEq] at hq
        exact ⟨[], by simp [hq]⟩
      | cons b post' =>
        simp only [List.cons_append, List.head?_cons, Option.some.injEq] at hq
        exact ⟨post' ++ [h], by simp [hq]⟩
    obtain ⟨rest, hrest⟩ := hq1
    have hL : (h :: pre' ++ cur :: post) ++ List.take 1 (h :: pre' ++ cur :: post)
        = (h :: pre') ++ cur :: (post ++ [h]) := by simp
    rw [hL, pairs_append, neighbours_append, hinit, hrest]
    have e1 : init ++ [p] ++ [cur] = init ++ [p, cur] := by simp
    rw [e1, neighbours_pairs_last init p cur (by rw [← hinit]; exact hcur_pre)]
    rw [neighbours_pairs_head cur q rest (by
      rw [← hrest]
      intro hx
      rcases List.mem_append.1 hx with hx | hx
      · exact hcur_post hx
      · simp only [List.mem_singleton] at hx
        exact hcur_pre (by simp [hx]))]
    exact List.Perm.refl _

theorem normalize_swap (l : Line) : normalize l.swap = normalize l := by
  obtain ⟨a, b⟩ := l
  unfold normalize Line.swap
  simp only
  by_cases h1 : a ≤ b <;> by_cases h2 : b ≤ a
  · have : a = b := le_antisymm h1 h2
    subst this; simp
  · simp [h1, h2]
  · simp [h1, h2]
  · omega

theorem pairs_reverse (l : List Int) :
    pairs l.reverse = ((pairs l).map Line.swap).reverse := by
  induction l with
  | nil => rfl
  | cons a l ih =>
    cases l with
    | nil => rfl
    | cons b l =>
      have e1 : (a :: b :: l).reverse = l.reverse ++ b :: [a] := by simp
      have e2 : l.reverse ++ [b] = (b :: l).reverse := by simp
      have e3 : pairs (a :: b :: l) = ⟨a, b⟩ :: pairs (b :: l) := rfl
      rw [e1, pairs_append, e2, ih, e3]
      simp [pairs, Line.swap]

/-- The cycle read from another start vertex has the same edges. -/
theorem isCycleOf_rotate (lines : List Line) (l1 l2 : List Int) (s : Int)
    (h : IsCycleOf lines (l1 ++ s :: l2)) : IsCycleOf lines (s :: (l2 ++ l1)) := by
  unfold IsCycleOf at h ⊢
  refine h.trans (List.Perm.map _ ?_)
  unfold cycleEdges
  cases l1 with
  | nil => simp
  | cons a l1 =>
    have e1 : (a :: l1 ++ s :: l2) ++ List.take 1 (a :: l1 ++ s :: l2)
        = (a :: l1) ++ s :: (l2 ++ [a]) := by simp
    have e2 : (s :: (l2 ++ a :: l1)) ++ List.take 1 (s :: (l2 ++ a :: l1))
        = (s :: l2) ++ a :: (l1 ++ [s]) := by simp
    rw [e1, e2, pairs_append (a :: l1) s, pairs_append (s :: l2) a]
    have e3 : (s :: l2) ++ [a] = s :: (l2 ++ [a]) := rfl
    have e4 : (a :: l1) ++ [s] = a :: (l1 ++ [s]) := rfl
    rw [e3, e4]
    exact List.perm_append_comm

/-- The cycle read in the other direction has the same edges. -/
theorem isCycleOf_reflect (lines : List Line) (s : Int) (t : List Int)
    (h : IsCycleOf lines (s :: t)) : IsCycleOf lines (s :: t.reverse) := by
  unfold IsCycleOf at h ⊢
  refine h.trans ?_
  unfold cycleEdges
  have e1 : (s :: t.reverse) ++ List.take 1 (s :: t.reverse)
      = ((s :: t) ++ List.take 1 (s :: t)).reverse := by simp
  rw [e1, pairs_reverse, List.map_reverse, List.map_map]
  have e2 : normalize ∘ Line.swap = normalize := funext normalize_swap
  rw [e2]
  exact (List.reverse_perm _).symm

theorem pairs_length (l : List Int) : (pairs l).length = l.length - 1 := by
  induction l with
  | nil => rfl
  | cons a l ih =>
    cases l with
    | nil => rfl
    | cons b l =>
      have e : pairs (a :: b :: l) = ⟨a, b⟩ :: pairs (b :: l) := rfl
      rw [e, List.length_cons, ih]
      simp

theorem cycle_lines_length (lines : List Line) (c : List Int) (hne : c ≠ [])
    (h : IsCycleOf lines c) : lines.length = c.length := by
  have := h.length_eq
  rw [List.length_map, List.length_map] at this
  rw [this]
  unfold cycleEdges
  rw [pairs_length]
  cases c with
  | nil => exact absurd rfl hne
  | cons a c => simp

theorem mem_endpoints_iff (lines : List Line) (x : Int) :
    x ∈ endpoints lines ↔ neighbours lines x ≠ [] := by
  induction lines with
  | nil => simp [endpoints, neighbours]
  | cons l ls ih =>
    simp only [endpoints, neighbours, List.flatMap_cons, List.mem_append, ne_eq,
      List.append_eq_nil, not_and_or] at ih ⊢
    rw [ih]
    apply or_congr_left
    simp only [lineNeighbours, List.mem_cons, List.mem_singleton, List.not_mem_nil, or_false,
      List.append_eq_nil, not_and_or]
    constructor
    · rintro (h | h)
      · left; simp [h]
      · right; simp [h]
    · rintro (h | h)
      · left; by_contra hc
        have hn : ¬ l.Start = x := fun e => hc e.symm
        exact h (by simp [hn])
      · right; by_contra hc
        have hn : ¬ l.End = x := fun e => hc e.symm
        exact h (by simp [hn])

theorem mem_mapKeys_mapAppend (mp : List (Int × List Int)) (k v x : Int) :
    x ∈ mapKeys (mapAppend mp k v) ↔ x = k ∨ x ∈ mapKeys mp := by
  induction mp with
  | nil => simp [mapAppend, mapKeys]
  | cons p rest ih =>
    obtain ⟨k1, l⟩ := p
    by_cases h1 : k1 = k
    · subst h1
      simp [mapAppend, mapKeys]
    · simp only [mapKeys] at ih
      simp only [mapAppend, h1, if_false, mapKeys, List.map_cons, List.mem_cons, ih]
      tauto

theorem mem_mapKeys_foldl (lines : List Line) (mp : List (Int × List Int)) (x : Int) :
    x ∈ mapKeys (lines.foldl (fun mp line =>
        mapAppend (mapAppend mp line.Start line.End) line.End line.Start) mp)
      ↔ x ∈ mapKeys mp ∨ x ∈ endpoints lines := by
  induction lines generalizing mp with
  | nil => simp [endpoints]
  | cons l ls ih =>
    rw [List.foldl_cons, ih, mem_mapKeys_mapAppend, mem_mapKeys_mapAppend]
    simp only [endpoints, List.flatMap_cons, List.mem_append, List.mem_cons, List.mem_singleton,
      List.not_mem_nil, or_false]
    tauto

/-- The keys of the adjacency map are the end points of the segments. -/
theorem mem_mapKeys_buildLineMap (lines : List Line) (x : Int) :
    x ∈ mapKeys (buildLineMap lines) ↔ x ∈ endpoints lines := by
  unfold buildLineMap
  rw [mem_mapKeys_foldl]
  simp [mapKeys]

theorem firstUnvisited_mem_of_exists (visited l : List Int) (h : ∃ x ∈ l, x ∉ visited) :
    firstUnvisited visited l ∈ l ∧ firstUnvisited visited l ∉ visited := by
  induction l with
  | nil => obtain ⟨x, hx, _⟩ := h; simp at hx
  | cons n rest ih =>
    rw [firstUnvisited]
    split
    · rename_i hn
      obtain ⟨x, hx, hv⟩ := h
      rcases List.mem_cons.1 hx with e | e
      · subst e; exact absurd hn hv
      · have := ih ⟨x, e, hv⟩
        exact ⟨List.mem_cons_of_mem _ this.1, this.2⟩
    · rename_i hn
      exact ⟨List.mem_cons_self _ _, hn⟩

theorem outer_all_visited (lineMap : List (Int × List Int)) (fuel : Nat) (order : List Int)
    (faces : List Face) (visited : List Int) (h : ∀ x ∈ order, x ∈ visited) :
    outer lineMap fuel order faces visited = some faces := by
  induction order with
  | nil => rfl
  | cons s rest ih =>
    rw [outer, if_pos (h s (List.mem_cons_self _ _))]
    exact ih (fun x hx => h x (List.mem_cons_of_mem _ hx))

/-- Once the inner loop has left the start vertex `s` along the cycle
`s :: pre ++ cur :: post`, it follows the cycle to its end and returns all of it. -/
theorem walk_cycle (lines : List Line) (s : Int) :
    ∀ (post pre : List Int) (cur : Int) (fuel : Nat),
      IsCycleOf lines (s :: pre ++ cur :: post) → (s :: pre ++ cur :: post).Nodup →
      (∀ v ∈ s :: pre ++ cur :: post, 0 ≤ v) → post.length < fuel →
      walk (buildLineMap lines) s fuel cur (s :: pre) ((s :: pre).reverse)
        = some (s :: pre ++ cur :: post, (s :: pre ++ cur :: post).reverse) := by
  intro post
  induction post with
  | nil =>
    intro pre cur fuel hc hnd _ hfuel
    obtain ⟨f, rfl⟩ : ∃ f, fuel = f + 1 := ⟨fuel - 1, by omega⟩
    have hne : s :: pre ≠ [] := by simp
    have hperm := neighbours_cycle_vertex lines (s :: pre) [] cur
      ((s :: pre).getLast hne) s hc hnd
      (by rw [List.nil_append]; exact List.getLast?_eq_getLast _ hne) (by simp)
    have hall : ∀ x ∈ mapGet (buildLineMap lines) cur, x ∈ cur :: (s :: pre).reverse := by
      intro x hx
      rw [mapGet_buildLineMap] at hx
      have hx2 := hperm.mem_iff.1 hx
      simp only [List.mem_cons, List.mem_singleton, List.not_mem_nil, or_false] at hx2
      rcases hx2 with e | e
      · rw [e]
        exact List.mem_cons_of_mem _ (List.mem_reverse.2 (List.getLast_mem hne))
      · rw [e]
        exact List.mem_cons_of_mem _ (List.mem_reverse.2 (List.mem_cons_self _ _))
    rw [walk, firstUnvisited_all_visited _ _ hall]
    simp
  | cons nx post ih =>
    intro pre cur fuel hc hnd hpos hfuel
    obtain ⟨f, rfl⟩ : ∃ f, fuel = f + 1 := ⟨fuel - 1, by omega⟩
    have hne : s :: pre ≠ [] := by simp
    have hperm := neighbours_cycle_vertex lines (s :: pre) (nx :: post) cur
      ((s :: pre).getLast hne) nx hc hnd
      (by
        rw [List.getLast?_append, List.getLast?_eq_getLast _ hne]
        rfl)
      (by simp)
    have hnd2 := List.nodup_append.1 hnd
    have hnd3 := List.nodup_cons.1 hnd2.2.1
    have hnx_cur : nx ≠ cur := by
      intro e
      exact hnd3.1 (by simp [e])
    have hnx_pre : nx ∉ s :: pre := by
      intro hx
      exact hnd2.2.2 hx (List.mem_cons_of_mem _ (List.mem_cons_self _ _))
    have hnx : firstUnvisited (cur :: (s :: pre).reverse) (mapGet (buildLineMap lines) cur)
        = nx := by
      apply firstUnvisited_unique
      · intro x hx
        rw [mapGet_buildLineMap] at hx
        have hx2 := hperm.mem_iff.1 hx
        simp only [List.mem_cons, List.mem_singleton, List.not_mem_nil, or_false] at hx2
        rcases hx2 with e | e
        · left
          rw [e]
          exact List.mem_cons_of_mem _ (List.mem_reverse.2 (List.getLast_mem hne))
        · right; exact e
      · rw [mapGet_buildLineMap]
        exact hperm.mem_iff.2 (by simp)
      · intro hx
        rcases List.mem_cons.1 hx with e | e
        · exact hnx_cur e
        · exact hnx_pre (List.mem_reverse.1 e)
    have hnx_pos : 0 ≤ nx := hpos nx (by simp)
    have hnx_ne : nx ≠ -1 := by omega
    have hnx_s : nx ≠ s := fun e => hnx_pre (by simp [e])
    rw [walk, hnx, if_neg hnx_ne, if_neg hnx_s]
    have e1 : s :: (pre ++ [cur]) ++ nx :: post = s :: pre ++ cur :: nx :: post := by simp
    have := ih (pre ++ [cur]) nx f (by rw [e1]; exact hc) (by rw [e1]; exact hnd)
      (by rw [e1]; exact hpos) (by simp at hfuel; omega)
    rw [e1] at this
    have e2 : (s :: (pre ++ [cur])).reverse = cur :: (s :: pre).reverse := by simp
    rw [e2] at this
    exact this

/-- The end points of the segments of a cycle are exactly its vertices. -/
theorem cycle_endpoints (lines : List Line) (c : List Int) (hn : 3 ≤ c.length)
    (hnd : c.Nodup) (hc : IsCycleOf lines c) (x : Int) :
    x ∈ endpoints lines ↔ x ∈ c := by
  rw [mem_endpoints_iff]
  constructor
  · intro hne
    by_contra hx
    have h0 : neighbours (cycleEdges c) x = [] := by
      apply neighbours_pairs_not_mem
      intro hm
      rcases List.mem_append.1 hm with h | h
      · exact hx h
      · exact hx (List.mem_of_mem_take h)
    have := neighbours_of_cycle lines c x hc
    rw [h0] at this
    exact hne this.eq_nil
  · intro hx
    obtain ⟨pre, post, rfl⟩ := List.append_of_mem hx
    have hlen : 2 ≤ (post ++ pre).length := by
      simp only [List.length_append, List.length_cons] at hn ⊢
      omega
    have hne : post ++ pre ≠ [] := by
      intro e; rw [e] at hlen; simp at hlen
    have hperm := neighbours_cycle_vertex lines pre post x
      ((post ++ pre).getLast hne) ((post ++ pre).head hne) hc hnd
      (List.getLast?_eq_getLast _ hne) (List.head?_eq_head hne)
    intro e
    rw [e] at hperm
    exact absurd hperm.length_eq (by simp)

/-- C5: for every `n >= 3` and every segment sequence that forms one simple cycle over
`n` distinct non-negative vertex indices (each edge once, in any order and orientation),
`ConvertLinesToFaces` on a document without faces appends exactly one face, whatever
order the start vertices are enumerated in, and that face holds each of the `n` vertices
exactly once. -/
theorem cycle_yields_one_face {F : Type} (c order : List Int) (m : Model F)
    (hn : 3 ≤ c.length) (hnd : c.Nodup) (hpos : ∀ v ∈ c, 0 ≤ v)
    (hcyc : IsCycleOf m.Lines c) (hord : ValidOrder order m.Lines) (hfaces : m.Faces = []) :
    ∃ face, ConvertLinesToFaces order m = some { m with Faces := [⟨face, [], []⟩] } ∧
      face.Perm c ∧ face.Nodup ∧ face.length = c.length := by
  have hmem : ∀ x, x ∈ order ↔ x ∈ c := by
    intro x
    rw [hord.mem_iff, mem_mapKeys_buildLineMap, cycle_endpoints m.Lines c hn hnd hcyc]
  -- the first start vertex
  cases order with
  | nil =>
    cases c with
    | nil => simp at hn
    | cons a c => exact absurd ((hmem a).2 (List.mem_cons_self _ _)) (by simp)
  | cons s rest =>
    have hs : s ∈ c := (hmem s).1 (List.mem_cons_self _ _)
    obtain ⟨l1, l2, rfl⟩ := List.append_of_mem hs
    -- the cycle read from `s`
    have hc1 : IsCycleOf m.Lines (s :: (l2 ++ l1)) := isCycleOf_rotate _ _ _ _ hcyc
    have hp1 : (s :: (l2 ++ l1)).Perm (l1 ++ s :: l2) := by
      have : (s :: l2 ++ l1).Perm (l1 ++ s :: l2) := List.perm_append_comm
      simpa using this
    have hnd1 : (s :: (l2 ++ l1)).Nodup := hp1.nodup_iff.2 hnd
    obtain ⟨a, t, ht⟩ : ∃ a t, l2 ++ l1 = a :: t := by
      cases h : l2 ++ l1 with
      | nil =>
        have := congrArg List.length h
        simp only [List.length_append, List.length_cons, List.length_nil] at hn this
        omega
      | cons a t => exact ⟨a, t, rfl⟩
    rw [ht] at hc1 hp1 hnd1
    have hne : a :: t ≠ [] := by simp
    have hadj := neighbours_cycle_vertex m.Lines [] (a :: t) s ((a :: t).getLast hne) a
      hc1 hnd1 (by rw [List.append_nil]; exact List.getLast?_eq_getLast _ hne) (by simp)
    have ha_s : a ≠ s := by
      intro e
      exact (List.nodup_cons.1 hnd1).1 (by simp [e])
    -- the first move
    have hmv := firstUnvisited_mem_of_exists [s] (mapGet (buildLineMap m.Lines) s)
      ⟨a, by rw [mapGet_buildLineMap]; exact hadj.mem_iff.2 (by simp), by simp [ha_s]⟩
    -- the cycle read from `s` in the direction of the first move
    obtain ⟨t2, hc2, hp2⟩ : ∃ t2,
        IsCycleOf m.Lines
          (s :: firstUnvisited [s] (mapGet (buildLineMap m.Lines) s) :: t2) ∧
        (s :: firstUnvisited [s] (mapGet (buildLineMap m.Lines) s) :: t2).Perm
          (l1 ++ s :: l2) := by
      have h1 := hmv.1
      rw [mapGet_buildLineMap] at h1 ⊢
      have h2 := hadj.mem_iff.1 h1
      simp only [List.mem_cons, List.mem_singleton, List.not_mem_nil, or_false] at h2
      rcases h2 with e | e
      · -- backwards: towards the last vertex of the cycle
        have hrev : ∃ t2, (a :: t).reverse = (a :: t).getLast hne :: t2 := by
          have hh : (a :: t).reverse.head? = some ((a :: t).getLast hne) := by
            rw [List.head?_reverse]; exact List.getLast?_eq_getLast _ hne
          cases hr : (a :: t).reverse with
          | nil => rw [hr] at hh; simp at hh
          | cons b t2 =>
            rw [hr] at hh
            simp only [List.head?_cons, Option.some.injEq] at hh
            exact ⟨t2, by rw [hh]⟩
        obtain ⟨t2, ht2⟩ := hrev
        refine ⟨t2, ?_, ?_⟩
        · rw [e, ← ht2]
          exact isCycleOf_reflect _ _ _ hc1
        · rw [e, ← ht2]
          exact (List.Perm.cons s (List.reverse_perm (a :: t))).trans hp1
      · exact ⟨t, by rw [e]; exact hc1, by rw [e]; exact hp1⟩
    generalize hmvdef : firstUnvisited [s] (mapGet (buildLineMap m.Lines) s) = mv
      at hmv hc2 hp2
    have hnd2 : (s :: mv :: t2).Nodup := hp2.nodup_iff.2 hnd
    have hpos2 : ∀ v ∈ s :: mv :: t2, 0 ≤ v := fun v hv => hpos v (hp2.mem_iff.1 hv)
    have hmv_ne : mv ≠ -1 := by
      have := hpos2 mv (by simp)
      omega
    have hmv_s : mv ≠ s := by
      intro e
      exact (List.nodup_cons.1 hnd2).1 (by simp [e])
    have hlen : m.Lines.length = t2.length + 2 := by
      rw [cycle_lines_length m.Lines _ (by simp) hc2]
      simp
    -- the inner loop from `s`
    have hwalk : walk (buildLineMap m.Lines) s (2 * m.Lines.length + 1) s [] []
        = some (s :: mv :: t2, (s :: mv :: t2).reverse) := by
      rw [walk]
      simp only [List.nil_append]
      rw [hmvdef, if_neg hmv_ne, if_neg hmv_s]
      have := walk_cycle m.Lines s t2 [] mv (2 * m.Lines.length) hc2 hnd2 hpos2 (by omega)
      simpa using this
    refine ⟨s :: mv :: t2, ?_, hp2, hnd2, hp2.length_eq⟩
    unfold ConvertLinesToFaces
    rw [hfaces, outer, if_neg (by simp), hwalk]
    simp only [List.length_cons, List.nil_append]
    have hgt : t2.length + 1 + 1 > 2 := by
      have := hp2.length_eq
      simp only [List.length_cons] at this
      omega
    rw [if_pos hgt, outer_all_visited]
    intro x hx
    apply List.mem_reverse.2
    exact hp2.mem_iff.2 ((hmem x).1 (List.mem_cons_of_mem _ hx))

/-- C5, witness: the 4-cycle 1-2, 2-3, 3-4, 4-1 (zero-based 0-1, 1-2, 2-3, 3-0) with the
keys enumerated as 2, 0, 3, 1 yields exactly one face with 4 vertices. -/
theorem cycle_yields_one_face_witness :
    ∃ face, ConvertLinesToFaces [2, 0, 3, 1]
        { (Model.empty : Model Int) with Lines := [⟨0, 1⟩, ⟨1, 2⟩, ⟨2, 3⟩, ⟨3, 0⟩] }
      = some { { (Model.empty : Model Int) with Lines := [⟨0, 1⟩, ⟨1, 2⟩, ⟨2, 3⟩, ⟨3, 0⟩] } with
          Faces := [⟨face, [], []⟩] } ∧
      face.Perm [0, 1, 2, 3] ∧ face.Nodup ∧ face.length = [0, 1, 2, 3].length :=
  cycle_yields_one_face [0, 1, 2, 3] [2, 0, 3, 1]
    { (Model.empty : Model Int) with Lines := [⟨0, 1⟩, ⟨1, 2⟩, ⟨2, 3⟩, ⟨3, 0⟩] }
    (by decide) (by decide) (by decide) (by decide) (by decide) rfl

/-! ## Faces follow segments, but need not close; the key order changes the result (C6, C7) -/

/-- C6 (as the code behaves): `ConvertLinesToFaces` always returns, and in every face it
appends each two consecutive vertices are joined by a line segment, for every segment
sequence and every order in which the start vertices are enumerated. (The last and the
first vertex need not be joined.) -/
theorem appended_faces_follow_segments {F : Type} (order : List Int) (m : Model F) :
    ∃ app, ConvertLinesToFaces order m = some { m with Faces := m.Faces ++ app } ∧
      ∀ f ∈ app, consecutiveJoined m.Lines f.Vertices = true := by
  obtain ⟨app, h, hgood⟩ := convert_spec order m
  exact ⟨app, h, fun f hf => chain_consecutiveJoined m.Lines f.Vertices (hgood f hf).2.2.2.2⟩

/-- C6, counterexample: for the open chain 1-2, 2-3 (zero-based 0-1, 1-2) and the key
order 0, 1, 2 the face 0, 1, 2 is appended, and it is not a closed loop: no segment
joins its last vertex 2 and its first vertex 0. -/
theorem open_chain_face_not_closed :
    ValidOrder [0, 1, 2] [⟨0, 1⟩, ⟨1, 2⟩] ∧
    (ConvertLinesToFaces [0, 1, 2]
        { (Model.empty : Model Int) with Lines := [⟨0, 1⟩, ⟨1, 2⟩] }).map (fun m => m.Faces)
      = some [⟨[0, 1, 2], [], []⟩] ∧
    closedLoop [⟨0, 1⟩, ⟨1, 2⟩] [0, 1, 2] = false ∧
    joined [⟨0, 1⟩, ⟨1, 2⟩] 2 0 = false := by
  refine ⟨by decide, by decide, by decide, by decide⟩

/-- C7 (the code at a failing input): the list of appended faces depends on the order
in which `range` enumerates the keys of the adjacency map. For the 4-cycle 1-2, 2-3, 3-4,
4-1 the key orders 0, 1, 2, 3 and 1, 0, 2, 3 are both possible enumerations, and
`ConvertLinesToFaces` appends the face 0, 1, 2, 3 under the first and the face
1, 0, 3, 2 under the second. For the chain 1-2, 2-3 the key order 0, 1, 2 gives the face
0, 1, 2, the order 2, 1, 0 the face 2, 1, 0, and the order 1, 0, 2 no face at all. -/
theorem faces_depend_on_key_order :
    ValidOrder [0, 1, 2, 3] [⟨0, 1⟩, ⟨1, 2⟩, ⟨2, 3⟩, ⟨3, 0⟩] ∧
    ValidOrder [1, 0, 2, 3] [⟨0, 1⟩, ⟨1, 2⟩, ⟨2, 3⟩, ⟨3, 0⟩] ∧
    (ConvertLinesToFaces [0, 1, 2, 3]
        { (Model.empty : Model Int) with Lines := [⟨0, 1⟩, ⟨1, 2⟩, ⟨2, 3⟩, ⟨3, 0⟩] }).map
        (fun m => m.Faces) = some [⟨[0, 1, 2, 3], [], []⟩] ∧
    (ConvertLinesToFaces [1, 0, 2, 3]
        { (Model.empty : Model Int) with Lines := [⟨0, 1⟩, ⟨1, 2⟩, ⟨2, 3⟩, ⟨3, 0⟩] }).map
        (fun m => m.Faces) = some [⟨[1, 0, 3, 2], [], []⟩] ∧
    (ConvertLinesToFaces [0, 1, 2, 3]
        { (Model.empty : Model Int) with Lines := [⟨0, 1⟩, ⟨1, 2⟩, ⟨2, 3⟩, ⟨3, 0⟩] }).map
        (fun m => m.Faces) ≠
      (ConvertLinesToFaces [1, 0, 2, 3]
        { (Model.empty : Model Int) with Lines := [⟨0, 1⟩, ⟨1, 2⟩, ⟨2, 3⟩, ⟨3, 0⟩] }).map
        (fun m => m.Faces) ∧
    ValidOrder [0, 1, 2] [⟨0, 1⟩, ⟨1, 2⟩] ∧
    ValidOrder [2, 1, 0] [⟨0, 1⟩, ⟨1, 2⟩] ∧
    ValidOrder [1, 0, 2] [⟨0, 1⟩, ⟨1, 2⟩] ∧
    (ConvertLinesToFaces [0, 1, 2]
        { (Model.empty : Model Int) with Lines := [⟨0, 1⟩, ⟨1, 2⟩] }).map (fun m => m.Faces)
      = some [⟨[0, 1, 2], [], []⟩] ∧
    (ConvertLinesToFaces [2, 1, 0]
        { (Model.empty : Model Int) with Lines := [⟨0, 1⟩, ⟨1, 2⟩] }).map (fun m => m.Faces)
      = some [⟨[2, 1, 0], [], []⟩] ∧
    (ConvertLinesToFaces [1, 0, 2]
        { (Model.empty : Model Int) with Lines := [⟨0, 1⟩, ⟨1, 2⟩] }).map (fun m => m.Faces)
      = some [] := by
  decide

/-! ## Rotation (C8) -/

theorem foldl_modifyAt_succ {α : Type} (f : α → α) (l : List Nat) (y : α) (ys : List α) :
    (l.map Nat.succ).foldl (fun acc i => modifyAt f i acc) (y :: ys)
      = y :: l.foldl (fun acc i => modifyAt f i acc) ys := by
  induction l generalizing ys with
  | nil => rfl
  | cons i l ih =>
    simp only [List.map_cons, List.foldl_cons]
    exact ih (modifyAt f i ys)

/-- The loop `for i := range xs { xs[i] = f(xs[i]) }` maps `f` over the slice. -/
theorem forRange_eq_map {α : Type} (f : α → α) (xs : List α) : forRange f xs = xs.map f := by
  induction xs with
  | nil => rfl
  | cons x xs ih =>
    unfold forRange at ih ⊢
    rw [List.length_cons, List.range_succ_eq_map, List.foldl_cons]
    show (List.map Nat.succ (List.range xs.length)).foldl (fun acc i => modifyAt f i acc)
        (f x :: xs) = _
    rw [foldl_modifyAt_succ, ih]
    rfl

/-- C8: in both variants `Rotate` replaces every vertex by the result of the X-axis
rotation, then the Y-axis rotation of the already-updated coordinates, then the Z-axis
rotation of the already-updated coordinates; the per-axis loops of variant A and the
per-vertex loop of variant B give the same positions; and in exact (real) arithmetic
the vertex (1,0,0) rotated by (0,0,pi/2) becomes (0,1,0). -/
theorem rotate_is_x_then_y_then_z :
    (∀ (F : Type) [Mul F] [Add F] [Sub F] [Neg F] (cos sin : F → F) (rx ry rz : F)
        (mA : A.Model F) (mB : B.Model F),
      (B.Rotate cos sin rx ry rz mB).Vertices = mB.Vertices.map (rotXYZ cos sin rx ry rz) ∧
      (A.Rotate cos sin rx ry rz mA).Vertices = mA.Vertices.map (rotXYZ cos sin rx ry rz) ∧
      (mA.Vertices = mB.Vertices →
        (A.Rotate cos sin rx ry rz mA).Vertices = (B.Rotate cos sin rx ry rz mB).Vertices)) ∧
    (B.Rotate Real.cos Real.sin 0 0 (Real.pi / 2)
        { (B.Model.empty : B.Model ℝ) with Vertices := [⟨1, 0, 0⟩] }).Vertices
      = [⟨0, 1, 0⟩] ∧
    (A.Rotate Real.cos Real.sin 0 0 (Real.pi / 2)
        { (A.Model.empty : A.Model ℝ) with Vertices := [⟨1, 0, 0⟩] }).Vertices
      = [⟨0, 1, 0⟩] := by
  have hB : ∀ (F : Type) [Mul F] [Add F] [Sub F] [Neg F] (cos sin : F → F) (rx ry rz : F)
      (mB : B.Model F),
      (B.Rotate cos sin rx ry rz mB).Vertices = mB.Vertices.map (rotXYZ cos sin rx ry rz) := by
    intro F _ _ _ _ cos sin rx ry rz mB
    simp only [B.Rotate, forRange_eq_map]
    rfl
  have hA : ∀ (F : Type) [Mul F] [Add F] [Sub F] [Neg F] (cos sin : F → F) (rx ry rz : F)
      (mA : A.Model F),
      (A.Rotate cos sin rx ry rz mA).Vertices = mA.Vertices.map (rotXYZ cos sin rx ry rz) := by
    intro F _ _ _ _ cos sin rx ry rz mA
    simp only [A.Rotate, forRange_eq_map, List.map_map]
    rfl
  refine ⟨?_, ?_, ?_⟩
  · intro F _ _ _ _ cos sin rx ry rz mA mB
    refine ⟨hB F cos sin rx ry rz mB, hA F cos sin rx ry rz mA, ?_⟩
    intro h
    rw [hA, hB, h]
  · rw [hB]
    simp [rotXYZ, rotX, rotY, rotZ, B.Model.empty]
  · rw [hA]
    simp [rotXYZ, rotX, rotY, rotZ, A.Model.empty]

/-! ## Variant A: load and save with deferred scale and translation (C9) -/

theorem facesChunks_flatten (fs : List Face) : (facesChunks fs).flatten = facesText fs := by
  unfold facesChunks facesText
  cases fs with
  | nil => simp
  | cons f fs =>
    have h : ∀ l : List Face, (l.flatMap faceChunks).flatten
        = (l.map (fun f => faceLine f ++ ['\n'])).flatten := by
      intro l
      induction l with
      | nil => rfl
      | cons g l ih =>
        simp only [List.flatMap_cons, List.flatten_append, List.map_cons, List.flatten_cons,
          faceChunks_flatten, ih]
    simp only [List.length_cons, gt_iff_lt, Nat.zero_lt_succ, if_true, List.flatten_cons, h]
    simp

theorem A_keep_cases {F α : Type} (m : A.Model F) (r : Except Fault α) (add : α → A.Model F)
    (h : r ≠ .error .outOfRange) :
    (∃ a, r = .ok a ∧ A.keep m r add = .ok (add a)) ∨
      ((∃ e, r = .error e) ∧ A.keep m r add = .ok m) := by
  cases r with
  | ok a => exact Or.inl ⟨a, rfl, rfl⟩
  | error e =>
    right
    refine ⟨⟨e, rfl⟩, ?_⟩
    cases e <;> first | rfl | exact absurd rfl h

/-- What a `v ` or `f ` line does to a document of variant A. -/
theorem A_loadLine_vf {F : Type} (pf : Str → Option F) (m : A.Model F) (line : Str)
    (h : HasPrefix line ['v', ' '] = true ∨ HasPrefix line ['f', ' '] = true) :
    ∃ m1, A.loadLine pf m line = .ok m1 ∧
      m1.Vertices = m.Vertices ++ (specVertex pf line).toList ∧
      m1.TexCoords = m.TexCoords ∧ m1.Normals = m.Normals ∧ m1.Scale = m.Scale ∧
      m1.TranslateX = m.TranslateX ∧ m1.TranslateY = m.TranslateY ∧
      m1.TranslateZ = m.TranslateZ := by
  unfold A.loadLine
  rcases h with hv | hf
  · simp only [hv, if_true]
    rcases parseVertex_spec pf line hv with ⟨v, hs, hp⟩ | ⟨hs, e, hp, he⟩
    · rw [hp, hs]; exact ⟨_, rfl, rfl, rfl, rfl, rfl, rfl, rfl, rfl⟩
    · rw [hp, hs]
      refine ⟨m, ?_, by simp, rfl, rfl, rfl, rfl, rfl, rfl⟩
      cases e <;> first | rfl | exact absurd rfl he
  · have h1 : HasPrefix line ['v', ' '] = false := by
      obtain ⟨r, rfl⟩ := (hasPrefix_iff _ _).1 hf
      rfl
    have h2 : HasPrefix line ['v', 't', ' '] = false := by
      obtain ⟨r, rfl⟩ := (hasPrefix_iff _ _).1 hf
      rfl
    have h3 : HasPrefix line ['v', 'n', ' '] = false := by
      obtain ⟨r, rfl⟩ := (hasPrefix_iff _ _).1 hf
      rfl
    have hsv : specVertex pf line = none := by simp [specVertex, h1]
    simp only [h1, h2, h3, hf, if_true, Bool.false_eq_true, if_false, hsv, Option.toList,
      List.append_nil]
    rcases A_keep_cases m (parseFace line) (fun face => { m with Faces := m.Faces ++ [face] })
      (parseFace_no_panic line (fields_ne_nil_of_start line _ 'f' (by decide) hf))
      with ⟨a, _, h⟩ | ⟨_, h⟩
    · exact ⟨_, h, rfl, rfl, rfl, rfl, rfl, rfl, rfl⟩
    · exact ⟨_, h, rfl, rfl, rfl, rfl, rfl, rfl, rfl⟩

theorem A_loadLines_vf {F : Type} (pf : Str → Option F) (lines : List Str) (m : A.Model F)
    (h : ∀ l ∈ lines, HasPrefix l ['v', ' '] = true ∨ HasPrefix l ['f', ' '] = true) :
    ∃ m1, A.loadLines pf m lines = .ok m1 ∧
      m1.Vertices = m.Vertices ++ lines.filterMap (specVertex pf) ∧
      m1.TexCoords = m.TexCoords ∧ m1.Normals = m.Normals ∧ m1.Scale = m.Scale ∧
      m1.TranslateX = m.TranslateX ∧ m1.TranslateY = m.TranslateY ∧
      m1.TranslateZ = m.TranslateZ := by
  induction lines generalizing m with
  | nil => exact ⟨m, rfl, by simp, rfl, rfl, rfl, rfl, rfl, rfl⟩
  | cons line rest ih =>
    obtain ⟨m1, h1, hv1, ht1, hn1, hs1, hx1, hy1, hz1⟩ :=
      A_loadLine_vf pf m line (h line (List.mem_cons_self _ _))
    obtain ⟨m2, h2, hv2, ht2, hn2, hs2, hx2, hy2, hz2⟩ :=
      ih m1 (fun l hl => h l (List.mem_cons_of_mem _ hl))
    refine ⟨m2, by simp [A.loadLines, h1, h2], ?_, ht2.trans ht1, hn2.trans hn1,
      hs2.trans hs1, hx2.trans hx1, hy2.trans hy1, hz2.trans hz1⟩
    rw [hv2, hv1, List.filterMap_cons]
    cases specVertex pf line <;> simp

/-- C9 (as the code behaves): in variant A, for a new document whose `Scale` is set to 1
and on which nothing but `LoadFromFile` is called, and an input with only vertex and face
lines, the load succeeds and `SaveToFile` writes the header, one `v` line per loaded
vertex carrying the coordinates that were parsed for it (exact arithmetic), and, if any
face was loaded, the faces heading and one `f` line per loaded face. -/
theorem deferred_save_with_unit_scale {F : Type} [Semiring F] (pf : Str → Option F)
    (fmtF : F → Str) (lines : List Str)
    (hvf : ∀ l ∈ lines, HasPrefix l ['v', ' '] = true ∨ HasPrefix l ['f', ' '] = true) :
    ∃ m1, A.LoadFromFile pf ⟨false, lines, false⟩ { (A.Model.empty : A.Model F) with Scale := 1 }
        = (m1, none) ∧
      m1.Vertices = lines.filterMap (specVertex pf) ∧
      A.SaveToFile fmtF ⟨false, none⟩ m1
        = (none, "# Parsed .obj file\n\n# Vertices\n".toList
            ++ (m1.Vertices.map (vertexLine fmtF)).flatten ++ facesText m1.Faces) := by
  obtain ⟨m1, h1, hv1, ht1, hn1, hs1, hx1, hy1, hz1⟩ :=
    A_loadLines_vf pf lines { (A.Model.empty : A.Model F) with Scale := 1 } hvf
  refine ⟨m1, by simp [A.LoadFromFile, h1], by rw [hv1]; simp [A.Model.empty], ?_⟩
  have hchunks : A.saveChunks fmtF m1
      = ["# Parsed .obj file\n\n".toList, "# Vertices\n".toList]
        ++ m1.Vertices.map (vertexLine fmtF) ++ facesChunks m1.Faces := by
    unfold A.saveChunks
    rw [ht1, hn1, hs1, hx1, hy1, hz1]
    simp [A.Model.empty, texChunks, normalChunks, vertexLine]
  unfold A.SaveToFile
  simp only [Bool.false_eq_true, if_false]
  rw [(foldl_writeString _ ⟨false, none⟩ rfl []).1, hchunks]
  simp [facesChunks_flatten]

/-- C9, witness: the input `v 1 2 3`, `f 1 1 1` with integer coordinates. -/
theorem deferred_save_with_unit_scale_witness :
    ∃ m1, A.LoadFromFile Atoi ⟨false, ["v 1 2 3".toList, "f 1 1 1".toList], false⟩
        { (A.Model.empty : A.Model Int) with Scale := 1 } = (m1, none) ∧
      m1.Vertices = ["v 1 2 3".toList, "f 1 1 1".toList].filterMap (specVertex Atoi) ∧
      A.SaveToFile fmtInt ⟨false, none⟩ m1
        = (none, "# Parsed .obj file\n\n# Vertices\n".toList
            ++ (m1.Vertices.map (vertexLine fmtInt)).flatten ++ facesText m1.Faces) :=
  deferred_save_with_unit_scale Atoi fmtInt ["v 1 2 3".toList, "f 1 1 1".toList] (by decide)

/-- C9, counterexample: a newly created document of variant A has `Scale` 0; after
loading the single line `v 1 2 3` (no error, vertex (1,2,3) stored) `SaveToFile` writes
the line `v 0 0 0`, not the parsed coordinates `v 1 2 3`. -/
theorem fresh_document_saves_zero_coordinates :
    (A.LoadFromFile Atoi ⟨false, ["v 1 2 3".toList], false⟩
      (A.Model.empty : A.Model Int)).2 = none ∧
    (A.LoadFromFile Atoi ⟨false, ["v 1 2 3".toList], false⟩
      (A.Model.empty : A.Model Int)).1.Vertices = [⟨1, 2, 3⟩] ∧
    A.SaveToFile fmtInt ⟨false, none⟩
      (A.LoadFromFile Atoi ⟨false, ["v 1 2 3".toList], false⟩ (A.Model.empty : A.Model Int)).1
      = (none, "# Parsed .obj file\n\n# Vertices\nv 0 0 0\n".toList) ∧
    vertexLine fmtInt (⟨1, 2, 3⟩ : Vertex Int) = "v 1 2 3\n".toList ∧
    A.SaveToFile fmtInt ⟨false, none⟩
      (A.LoadFromFile Atoi ⟨false, ["v 1 2 3".toList], false⟩ (A.Model.empty : A.Model Int)).1
      ≠ (none, "# Parsed .obj file\n\n# Vertices\n".toList
          ++ vertexLine fmtInt (⟨1, 2, 3⟩ : Vertex Int)) := by
  refine ⟨by decide, by decide, by decide, by decide, by decide⟩

/-! ## Write failures are not reported (C10) -/

/-- C10 (the code at a failing input): with an output stream that is created but accepts
only 10 characters, a write of `SaveToFile` fails (the writer holds the error and `Flush`
reports it), only the first 10 characters are written, and `SaveToFile` still returns
no error; only a failure to create the stream is returned, and once the stream is
created no write failure ever is. -/
theorem save_ignores_write_failure :
    ((B.saveChunks fmtInt (B.Model.empty : B.Model Int)).foldl Writer.WriteString
      ⟨⟨false, some 10⟩, [], false⟩).failed = true ∧
    ((B.saveChunks fmtInt (B.Model.empty : B.Model Int)).foldl Writer.WriteString
      ⟨⟨false, some 10⟩, [], false⟩).Flush = some .writeFailed ∧
    B.SaveToFile fmtInt ⟨false, some 10⟩ (B.Model.empty : B.Model Int)
      = (none, "# Parsed .".toList) ∧
    B.SaveToFile fmtInt ⟨true, none⟩ (B.Model.empty : B.Model Int)
      = (some .createFailed, []) ∧
    (∀ (capacity : Option Nat) (m : B.Model Int),
      (B.SaveToFile fmtInt ⟨false, capacity⟩ m).1 = none) := by
  refine ⟨by decide, by decide, by decide, by decide, ?_⟩
  intro capacity m
  simp [B.SaveToFile]

/-! ## Rotation by zero angles and translation there and back (C11, C12) -/

/-- In exact arithmetic a rotation whose three cosines are 1 and whose three sines are 0
(the angles 0, 0, 0) leaves every vertex where it is. (Whether the `float64` values are
bit-for-bit the same is a matter of IEEE-754 signed zeros and NaNs, which this
development does not model.) -/
theorem rotate_zero_exact {F : Type} [Ring F] (cos sin : F → F) (zero : F)
    (hcos : cos zero = 1) (hsin : sin zero = 0) (m : B.Model F) :
    B.Rotate cos sin zero zero zero m = m := by
  obtain ⟨vs, ts, ns, fs, ls, sc, tx, ty, tz⟩ := m
  simp only [B.Rotate, forRange_eq_map, hcos, hsin]
  congr 1
  have : rotateVertex (1 : F) 0 1 0 1 0 = id := by
    funext v
    obtain ⟨x, y, z⟩ := v
    simp [rotateVertex]
  rw [this, List.map_id]

/-- The real rotation by the angles 0, 0, 0 is the identity. -/
theorem rotate_zero_exact_witness (m : B.Model ℝ) :
    B.Rotate Real.cos Real.sin 0 0 0 m = m :=
  rotate_zero_exact Real.cos Real.sin 0 Real.cos_zero Real.sin_zero m

/-- C12: in variant B, in exact arithmetic, `Translate(tx,ty,tz)` followed by
`Translate(-tx,-ty,-tz)` restores every vertex position and the three translation
accumulators (in fact the whole document), for every document and all offsets; so does
`Translate(1,2,3)` followed by `Translate(-1,-2,-3)`. -/
theorem translate_there_and_back :
    (∀ (F : Type) [AddGroup F] (tx ty tz : F) (m : B.Model F),
      (B.Translate (-tx) (-ty) (-tz) (B.Translate tx ty tz m)).Vertices = m.Vertices ∧
      (B.Translate (-tx) (-ty) (-tz) (B.Translate tx ty tz m)).TranslateX = m.TranslateX ∧
      (B.Translate (-tx) (-ty) (-tz) (B.Translate tx ty tz m)).TranslateY = m.TranslateY ∧
      (B.Translate (-tx) (-ty) (-tz) (B.Translate tx ty tz m)).TranslateZ = m.TranslateZ ∧
      B.Translate (-tx) (-ty) (-tz) (B.Translate tx ty tz m) = m) ∧
    (∀ m : B.Model ℝ, B.Translate (-1) (-2) (-3) (B.Translate 1 2 3 m) = m) := by
  have key : ∀ (F : Type) [AddGroup F] (tx ty tz : F) (m : B.Model F),
      B.Translate (-tx) (-ty) (-tz) (B.Translate tx ty tz m) = m := by
    intro F _ tx ty tz m
    obtain ⟨vs, ts, ns, fs, ls, sc, ax, ay, az⟩ := m
    simp only [B.Translate, forRange_eq_map, List.map_map, add_neg_cancel_right]
    congr 1
    have : ((fun v : Vertex F => (⟨v.X + -tx, v.Y + -ty, v.Z + -tz⟩ : Vertex F)) ∘
        fun v => ⟨v.X + tx, v.Y + ty, v.Z + tz⟩) = id := by
      funext v
      obtain ⟨x, y, z⟩ := v
      simp
    rw [this, List.map_id]
  refine ⟨?_, fun m => key ℝ 1 2 3 m⟩
  intro F _ tx ty tz m
  rw [key]
  exact ⟨rfl, rfl, rfl, rfl, rfl⟩

/-! ## Order of the transforms in variant A; what the operations leave alone (C18, C19) -/

/-- C18 (as the code behaves): in variant A the order in which the caller invokes
`Translate` and `Rotate` does not change the result: `Translate` only changes the
accumulators and `Rotate` only the vertex positions, so both orders give the same
document and `SaveToFile` writes the same text. In variant B the order matters: in real
arithmetic the vertex (0,0,0) translated by (1,0,0) and then rotated by (0,0,pi/2) is
(0,1,0), rotated and then translated it is (1,0,0). -/
theorem deferred_translate_commutes_with_rotate :
    (∀ (F : Type) [Mul F] [Add F] [Sub F] [Neg F] (cos sin : F → F)
        (tx ty tz rx ry rz : F) (m : A.Model F),
      A.Rotate cos sin rx ry rz (A.Translate tx ty tz m)
        = A.Translate tx ty tz (A.Rotate cos sin rx ry rz m)) ∧
    (B.Rotate Real.cos Real.sin 0 0 (Real.pi / 2)
        (B.Translate 1 0 0 { (B.Model.empty : B.Model ℝ) with Vertices := [⟨0, 0, 0⟩] })).Vertices
      = [⟨0, 1, 0⟩] ∧
    (B.Translate 1 0 0
        (B.Rotate Real.cos Real.sin 0 0 (Real.pi / 2)
          { (B.Model.empty : B.Model ℝ) with Vertices := [⟨0, 0, 0⟩] })).Vertices
      = [⟨1, 0, 0⟩] := by
  refine ⟨?_, ?_, ?_⟩
  · intro F _ _ _ _ cos sin tx ty tz rx ry rz m
    rfl
  · simp [B.Rotate, B.Translate, forRange_eq_map, rotateVertex, B.Model.empty]
  · simp [B.Rotate, B.Translate, forRange_eq_map, rotateVertex, B.Model.empty]

/-- C18, refutation of the claim as stated: whatever the arithmetic of the coordinates
and whatever `cos` and `sin` are, there are no document, arguments and output stream of
variant A for which `Translate` followed by `Rotate` makes `SaveToFile` write anything
else than `Rotate` followed by `Translate`. -/
theorem no_order_dependence_in_variant_A :
    ¬ ∃ (F : Type) (mul : Mul F) (add : Add F) (sub : Sub F) (neg : Neg F) (cos sin : F → F),
      @OrderMattersA F mul add sub neg cos sin := by
  rintro ⟨F, mul, add, sub, neg, cos, sin, fmtF, sink, m, tx, ty, tz, rx, ry, rz, h⟩
  exact h rfl

/-- C19: every operation applied after parsing in variant B leaves the texture
coordinates, the normals and the line segments unchanged and keeps the number of
vertices; `ConvertLinesToFaces` keeps the vertices too and only appends faces after the
existing ones; `Scale`, `Translate` and `Rotate` do not change the faces at all. -/
theorem operations_frame :
    ∀ (F : Type) [Mul F] [Add F] [Sub F] [Neg F] (cos sin : F → F) (a b c : F)
      (order : List Int) (m : B.Model F),
      (∃ app, B.ConvertLinesToFaces order m = some { m with Faces := m.Faces ++ app }) ∧
      ((B.Scale a b c m).TexCoords = m.TexCoords ∧ (B.Scale a b c m).Normals = m.Normals ∧
        (B.Scale a b c m).Lines = m.Lines ∧ (B.Scale a b c m).Faces = m.Faces ∧
        (B.Scale a b c m).Vertices.length = m.Vertices.length) ∧
      ((B.Translate a b c m).TexCoords = m.TexCoords ∧
        (B.Translate a b c m).Normals = m.Normals ∧
        (B.Translate a b c m).Lines = m.Lines ∧ (B.Translate a b c m).Faces = m.Faces ∧
        (B.Translate a b c m).Vertices.length = m.Vertices.length) ∧
      ((B.Rotate cos sin a b c m).TexCoords = m.TexCoords ∧
        (B.Rotate cos sin a b c m).Normals = m.Normals ∧
        (B.Rotate cos sin a b c m).Lines = m.Lines ∧
        (B.Rotate cos sin a b c m).Faces = m.Faces ∧
        (B.Rotate cos sin a b c m).Vertices.length = m.Vertices.length) := by
  intro F _ _ _ _ cos sin a b c order m
  refine ⟨?_, ?_, ?_, ?_⟩
  · obtain ⟨app, h, _⟩ := convert_spec order m
    exact ⟨app, h⟩
  · exact ⟨rfl, rfl, rfl, rfl, by simp [B.Scale, forRange_eq_map]⟩
  · exact ⟨rfl, rfl, rfl, rfl, by simp [B.Translate, forRange_eq_map]⟩
  · exact ⟨rfl, rfl, rfl, rfl, by simp [B.Rotate, forRange_eq_map]⟩

/-! ## Size and disjointness of the reconstructed faces (C13, C14) -/

/-- The faces the outer loop appends are built by the inner loop, and their vertices are
pairwise different and were not visited before. -/
theorem outer_vertices (lineMap : List (Int × List Int)) (fuel : Nat) :
    ∀ (order : List Int) (faces : List Face) (visited : List Int) (faces1 : List Face),
      outer lineMap fuel order faces visited = some faces1 →
      ∃ app, faces1 = faces ++ app ∧ (∀ f ∈ app, WalkedFace lineMap f) ∧
        (faceVertices app).Nodup ∧ ∀ x ∈ faceVertices app, x ∉ visited := by
  intro order
  induction order with
  | nil =>
    intro faces _ faces1 h
    simp only [outer, Option.some.injEq] at h
    exact ⟨[], by simp [h], by simp, by simp [faceVertices], by simp [faceVertices]⟩
  | cons start rest ih =>
    intro faces visited faces1 h
    rw [outer] at h
    split at h
    · exact ih _ _ _ h
    · rename_i hstart
      cases hw : walk lineMap start fuel start [] visited with
      | none => rw [hw] at h; simp at h
      | some r =>
        obtain ⟨face, visited1⟩ := r
        rw [hw] at h
        simp only at h
        obtain ⟨path, hf, hvis, hch, hnd, hnot⟩ :=
          walk_path lineMap start fuel start [] visited _ _ hw
        simp only [List.nil_append] at hf
        obtain ⟨app, happ, hgood, hnodup, hfresh⟩ := ih _ _ _ h
        have hface_nd : face.Nodup := by
          rw [hf, List.nodup_cons]
          exact ⟨fun hx => (hnot _ hx) (List.mem_cons_self _ _), hnd⟩
        have hface_vis : ∀ x ∈ face, x ∈ visited1 ∧ x ∉ visited := by
          intro x hx
          rw [hf] at hx
          rw [hvis]
          rcases List.mem_cons.1 hx with rfl | hx
          · exact ⟨by simp, hstart⟩
          · exact ⟨by simp [hx], fun hc => hnot x hx (List.mem_cons_of_mem _ hc)⟩
        have hvis_mono : ∀ x, x ∈ visited → x ∈ visited1 := by
          intro x hx
          rw [hvis]
          simp [hx]
        by_cases hlen : face.length > 2
        · simp only [hlen, if_true] at happ
          refine ⟨⟨face, [], []⟩ :: app, by simp [happ], ?_, ?_, ?_⟩
          · intro f hfm
            rcases List.mem_cons.1 hfm with rfl | hfm
            · refine ⟨rfl, rfl, hlen, hface_nd, ?_⟩
              simpa [hf, List.Chain'] using hch
            · exact hgood f hfm
          · simp only [faceVertices, List.flatMap_cons] at hnodup hfresh ⊢
            rw [List.nodup_append]
            refine ⟨hface_nd, hnodup, ?_⟩
            intro x hx1 hx2
            exact hfresh x hx2 (hface_vis x hx1).1
          · intro x hx
            simp only [faceVertices, List.flatMap_cons, List.mem_append] at hx hfresh
            rcases hx with hx | hx
            · exact (hface_vis x hx).2
            · exact fun hc => hfresh x hx (hvis_mono x hc)
        · simp only [hlen, if_false] at happ
          exact ⟨app, happ, hgood, hnodup, fun x hx hc => hfresh x hx (hvis_mono x hc)⟩

/-- `ConvertLinesToFaces` returns, and the faces it appends are built by the inner loop
and have pairwise different vertices. -/
theorem convert_vertices {F : Type} (order : List Int) (m : Model F) :
    ∃ app, ConvertLinesToFaces order m = some { m with Faces := m.Faces ++ app } ∧
      (∀ f ∈ app, WalkedFace (buildLineMap m.Lines) f) ∧ (faceVertices app).Nodup := by
  obtain ⟨app0, h0, _⟩ := convert_spec order m
  unfold ConvertLinesToFaces at h0 ⊢
  cases ho : outer (buildLineMap m.Lines) (2 * m.Lines.length + 1) order m.Faces [] with
  | none => rw [ho] at h0; simp at h0
  | some faces1 =>
    obtain ⟨app, happ, hgood, hnd, _⟩ := outer_vertices _ _ _ _ _ _ ho
    exact ⟨app, by simp [happ], hgood, hnd⟩

/-- Every vertex of a face built by the inner loop is an end point of a segment. -/
theorem walkedFace_endpoints (lines : List Line) (f : Face)
    (h : WalkedFace (buildLineMap lines) f) : ∀ x ∈ f.Vertices, x ∈ endpoints lines := by
  obtain ⟨_, _, hlen, _, hch⟩ := h
  have hrel : ∀ a b, b ∈ mapGet (buildLineMap lines) a →
      a ∈ endpoints lines ∧ b ∈ endpoints lines := by
    intro a b hab
    rw [mapGet_buildLineMap] at hab
    refine ⟨?_, neighbours_mem_endpoints _ _ _ hab⟩
    rw [mem_endpoints_iff]
    intro e
    rw [e] at hab
    simp at hab
  cases hv : f.Vertices with
  | nil => simp
  | cons a rest =>
    rw [hv] at hch hlen
    cases rest with
    | nil => simp at hlen
    | cons b rest =>
      have hch1 := List.chain'_cons.1 hch
      intro x hx
      rcases List.mem_cons.1 hx with rfl | hx
      · exact (hrel _ _ hch1.1).1
      · -- every later vertex comes after some vertex it is adjacent to
        have : ∀ (l : List Int) (p : Int),
            List.Chain (fun a b => b ∈ mapGet (buildLineMap lines) a) p l →
            ∀ y ∈ l, y ∈ endpoints lines := by
          intro l
          induction l with
          | nil => intro _ _ y hy; simp at hy
          | cons c l ih =>
            intro p hc y hy
            rw [List.chain_cons] at hc
            rcases List.mem_cons.1 hy with rfl | hy
            · exact (hrel _ _ hc.1).2
            · exact ih c hc.2 y hy
        exact this (b :: rest) a hch x hx

/-- C13: for every segment sequence (and every key order) each face that
`ConvertLinesToFaces` appends has more than 2 vertex indices; and when the segment
sequence is a single segment, such as 1-2, no face is appended. -/
theorem appended_faces_have_three_vertices :
    ∀ (F : Type) (order : List Int) (m : Model F),
      (∃ app, ConvertLinesToFaces order m = some { m with Faces := m.Faces ++ app } ∧
        ∀ f ∈ app, 2 < f.Vertices.length) ∧
      (∀ a b : Int, ConvertLinesToFaces order { m with Lines := [⟨a, b⟩] }
        = some { m with Lines := [⟨a, b⟩] }) ∧
      (ConvertLinesToFaces order { m with Lines := [⟨0, 1⟩] }
        = some { m with Lines := [⟨0, 1⟩] }) := by
  intro F order m
  have hsingle : ∀ a b : Int, ConvertLinesToFaces order { m with Lines := [⟨a, b⟩] }
      = some { m with Lines := [⟨a, b⟩] } := by
    intro a b
    obtain ⟨app, h, hgood, _⟩ := convert_vertices order { m with Lines := [⟨a, b⟩] }
    cases app with
    | nil => simpa using h
    | cons f app =>
      exfalso
      have hw := hgood f (List.mem_cons_self _ _)
      have hsub : f.Vertices ⊆ [a, b] := by
        intro x hx
        have := walkedFace_endpoints [⟨a, b⟩] f hw x hx
        simpa [endpoints] using this
      have hle := (hw.2.2.2.1.subperm hsub).length_le
      have := hw.2.2.1
      simp at hle
      omega
  refine ⟨?_, hsingle, hsingle 0 1⟩
  obtain ⟨app, h, hgood⟩ := convert_spec order m
  exact ⟨app, h, fun f hf => (hgood f hf).2.2.1⟩

/-- C14: across all faces appended by one call of `ConvertLinesToFaces` every vertex
index occurs at most once: the vertex lists of the appended faces, put one after the
other, have no repetition, for every segment sequence and every key order. -/
theorem appended_faces_share_no_vertex {F : Type} (order : List Int) (m : Model F) :
    ∃ app, ConvertLinesToFaces order m = some { m with Faces := m.Faces ++ app } ∧
      (faceVertices app).Nodup ∧ (∀ f ∈ app, f.Vertices.Nodup) ∧
      List.Pairwise (fun f g => ∀ x ∈ f.Vertices, x ∉ g.Vertices) app := by
  obtain ⟨app, h, hgood, hnd⟩ := convert_vertices order m
  refine ⟨app, h, hnd, fun f hf => (hgood f hf).2.2.2.1, ?_⟩
  clear h hgood
  induction app with
  | nil => exact List.Pairwise.nil
  | cons f app ih =>
    simp only [faceVertices, List.flatMap_cons] at hnd
    have hna := List.nodup_append.1 hnd
    refine List.Pairwise.cons ?_ (ih hna.2.1)
    intro g hg x hx hxg
    exact hna.2.2 hx (List.mem_flatMap.2 ⟨g, hg, hxg⟩)

/-! ## Index ranges and attribute lengths are not checked (C15, C16) -/

/-- C15 (as the code behaves): if in a document every vertex index stored in a face or a
line segment references a position within the vertex sequence, this is still so after
`ConvertLinesToFaces` (whatever the key order): the vertex and segment sequences are
unchanged and every vertex of an appended face is an end point of a segment. The
loader itself stores the indices without comparing them with the number of vertices. -/
theorem convert_keeps_indices_valid {F : Type} (order : List Int) (m : Model F)
    (h : indicesValid m = true) :
    ∃ m1, ConvertLinesToFaces order m = some m1 ∧ m1.Vertices = m.Vertices ∧
      m1.Lines = m.Lines ∧ indicesValid m1 = true := by
  obtain ⟨app, hc, hgood⟩ := convert_spec order m
  refine ⟨_, hc, rfl, rfl, ?_⟩
  unfold indicesValid at h ⊢
  rw [Bool.and_eq_true] at h ⊢
  refine ⟨?_, h.2⟩
  rw [List.all_append, Bool.and_eq_true]
  refine ⟨h.1, ?_⟩
  rw [List.all_eq_true]
  intro f hf
  rw [List.all_eq_true]
  intro x hx
  have hx1 := walkedFace_endpoints m.Lines f (hgood f hf) x hx
  simp only [endpoints, List.mem_flatMap] at hx1
  obtain ⟨l, hl, hxl⟩ := hx1
  have hl2 := (List.all_eq_true.1 h.2) l hl
  rw [Bool.and_eq_true] at hl2
  simp only [List.mem_cons, List.mem_singleton, List.not_mem_nil, or_false] at hxl
  rcases hxl with e | e
  · rw [e]; exact hl2.1
  · rw [e]; exact hl2.2

/-- C15, witness: three vertices and the triangle of segments 1-2, 2-3, 3-1. -/
theorem convert_keeps_indices_valid_witness :
    ∃ m1, ConvertLinesToFaces [0, 1, 2]
        { (Model.empty : Model Int) with
          Vertices := [⟨0, 0, 0⟩, ⟨1, 0, 0⟩, ⟨0, 1, 0⟩]
          Lines := [⟨0, 1⟩, ⟨1, 2⟩, ⟨2, 0⟩] } = some m1 ∧
      m1.Vertices = [⟨0, 0, 0⟩, ⟨1, 0, 0⟩, ⟨0, 1, 0⟩] ∧
      m1.Lines = [⟨0, 1⟩, ⟨1, 2⟩, ⟨2, 0⟩] ∧ indicesValid m1 = true :=
  convert_keeps_indices_valid [0, 1, 2]
    { (Model.empty : Model Int) with
      Vertices := [⟨0, 0, 0⟩, ⟨1, 0, 0⟩, ⟨0, 1, 0⟩]
      Lines := [⟨0, 1⟩, ⟨1, 2⟩, ⟨2, 0⟩] } (by decide)

/-- C15, counterexample: the input `v 0 0 0`, `f 1 2 3`, `l 0 5` is loaded without
error into a document with one vertex, the face 0, 1, 2 and the segment -1, 4: the
indices 1, 2, 4 and -1 reference no position of the vertex sequence. -/
theorem loaded_indices_out_of_range :
    (LoadFromFile Atoi
      ⟨false, ["v 0 0 0".toList, "f 1 2 3".toList, "l 0 5".toList], false⟩
      (Model.empty : Model Int)).2 = none ∧
    (LoadFromFile Atoi
      ⟨false, ["v 0 0 0".toList, "f 1 2 3".toList, "l 0 5".toList], false⟩
      (Model.empty : Model Int)).1.Vertices = [⟨0, 0, 0⟩] ∧
    (LoadFromFile Atoi
      ⟨false, ["v 0 0 0".toList, "f 1 2 3".toList, "l 0 5".toList], false⟩
      (Model.empty : Model Int)).1.Faces = [⟨[0, 1, 2], [], []⟩] ∧
    (LoadFromFile Atoi
      ⟨false, ["v 0 0 0".toList, "f 1 2 3".toList, "l 0 5".toList], false⟩
      (Model.empty : Model Int)).1.Lines = [⟨-1, 4⟩] ∧
    indicesValid (LoadFromFile Atoi
      ⟨false, ["v 0 0 0".toList, "f 1 2 3".toList, "l 0 5".toList], false⟩
      (Model.empty : Model Int)).1 = false := by
  refine ⟨by decide, by decide, by decide, by decide, by decide⟩

theorem parseRef_lengths (acc f1 : Face) (part : Str) (h : parseRef acc part = .ok f1) :
    f1.Vertices.length = acc.Vertices.length + 1 ∧
    f1.TexCoords.length ≤ acc.TexCoords.length + 1 ∧
    acc.TexCoords.length ≤ f1.TexCoords.length ∧
    f1.Normals.length ≤ acc.Normals.length + 1 ∧
    acc.Normals.length ≤ f1.Normals.length := by
  unfold parseRef at h
  cases hs : Split '/' part with
  | nil => rw [hs] at h; simp at h
  | cons v0 rest =>
    rw [hs] at h
    simp only at h
    cases hv : Atoi v0 with
    | none => rw [hv] at h; simp at h
    | some vIdx =>
      rw [hv] at h
      simp only at h
      rcases rest with _ | ⟨t, _ | ⟨n, rest⟩⟩
      · simp only [Except.ok.injEq] at h
        subst h; simp
      · by_cases ht : t = []
        · simp only [ht, ne_eq, not_true_eq_false, if_false, Except.ok.injEq] at h
          subst h; simp
        · cases hT : Atoi t with
          | none => simp [ht, hT] at h
          | some tIdx =>
            simp only [ht, hT, ne_eq, not_false_eq_true, if_true, Except.ok.injEq] at h
            subst h; simp
      · by_cases ht : t = []
        · by_cases hn : n = []
          · simp only [ht, hn, ne_eq, not_true_eq_false, if_false, Except.ok.injEq] at h
            subst h; simp
          · cases hN : Atoi n with
            | none => simp [ht, hn, hN] at h
            | some nIdx =>
              simp only [ht, hn, hN, ne_eq, not_true_eq_false, not_false_eq_true, if_false,
                if_true, Except.ok.injEq] at h
              subst h; simp
        · cases hT : Atoi t with
          | none => simp [ht, hT] at h
          | some tIdx =>
            by_cases hn : n = []
            · simp only [ht, hn, hT, ne_eq, not_true_eq_false, not_false_eq_true, if_false,
                if_true, Except.ok.injEq] at h
              subst h; simp
            · cases hN : Atoi n with
              | none => simp [ht, hn, hT, hN] at h
              | some nIdx =>
                simp only [ht, hn, hT, hN, ne_eq, not_false_eq_true, if_true,
                  Except.ok.injEq] at h
                subst h; simp

theorem parseRefs_lengths (parts : List Str) (acc f1 : Face)
    (h : parseRefs acc parts = .ok f1) :
    f1.Vertices.length = acc.Vertices.length + parts.length ∧
    f1.TexCoords.length ≤ acc.TexCoords.length + parts.length ∧
    f1.Normals.length ≤ acc.Normals.length + parts.length := by
  induction parts generalizing acc with
  | nil =>
    simp only [parseRefs, Except.ok.injEq] at h
    subst h; simp
  | cons p ps ih =>
    rw [parseRefs] at h
    cases hp : parseRef acc p with
    | error e => rw [hp] at h; simp at h
    | ok f2 =>
      rw [hp] at h
      have h1 := parseRef_lengths acc f2 p hp
      have h2 := ih f2 h
      simp only [List.length_cons]
      omega

/-- C16 (as the code behaves): every face that `parseFace` returns without error has a
texture-index sequence and a normal-index sequence that are each at most as long as its
vertex-index sequence (one entry for each reference that carries a non-empty component
of that kind); they need not be empty or of full length. -/
theorem parsed_face_attribute_lengths (line : Str) (f : Face)
    (h : parseFace line = .ok f) :
    f.TexCoords.length ≤ f.Vertices.length ∧ f.Normals.length ≤ f.Vertices.length := by
  unfold parseFace at h
  cases hf : Fields line with
  | nil => rw [hf] at h; simp [sliceFrom1] at h
  | cons w parts =>
    rw [hf] at h
    simp only [sliceFrom1] at h
    have := parseRefs_lengths parts ⟨[], [], []⟩ f h
    simp only [List.length_nil, Nat.zero_add] at this
    omega

/-- C16, witness: the line `f 1/1 2 3/3`. -/
theorem parsed_face_attribute_lengths_witness :
    (⟨[0, 1, 2], [0, 2], []⟩ : Face).TexCoords.length
        ≤ (⟨[0, 1, 2], [0, 2], []⟩ : Face).Vertices.length ∧
    (⟨[0, 1, 2], [0, 2], []⟩ : Face).Normals.length
        ≤ (⟨[0, 1, 2], [0, 2], []⟩ : Face).Vertices.length :=
  parsed_face_attribute_lengths "f 1/1 2 3/3".toList ⟨[0, 1, 2], [0, 2], []⟩ (by decide)

/-- C16, counterexample: `parseFace` reads the line `f 1/1 2 3/3` without error into a
face with 3 vertex indices and 2 texture indices, neither none nor all. -/
theorem partial_texture_indices_accepted :
    parseFace "f 1/1 2 3/3".toList = .ok ⟨[0, 1, 2], [0, 2], []⟩ ∧
    allOrNothing ⟨[0, 1, 2], [0, 2], []⟩ = false := by
  refine ⟨by decide, by decide⟩

/-! ## The layout of the written file (C17) -/

theorem foldl_writeString_failed (chunks : List Str) (w : Writer) (h : w.failed = true) :
    chunks.foldl Writer.WriteString w = w := by
  induction chunks with
  | nil => rfl
  | cons c cs ih =>
    have : Writer.WriteString w c = w := by simp [Writer.WriteString, h]
    rw [List.foldl_cons, this, ih]

theorem writeString_step (w : Writer) (c : Str) (h : w.failed = false) :
    ((Writer.WriteString w c).failed = false ∧ (Writer.WriteString w c).data = w.data ++ c) ∨
    ((Writer.WriteString w c).failed = true ∧ (Writer.WriteString w c).data <+: w.data ++ c) := by
  unfold Writer.WriteString
  simp only [h, Bool.false_eq_true, if_false]
  cases w.sink.capacity with
  | none => exact Or.inl ⟨rfl, rfl⟩
  | some cap =>
    simp only
    split
    · exact Or.inl ⟨rfl, rfl⟩
    · exact Or.inr ⟨rfl, (List.prefix_append_right_inj _).2 (List.take_prefix _ _)⟩

/-- Whatever the stream accepts, the text written is a beginning of the text of the
chunks. -/
theorem foldl_writeString_prefix (chunks : List Str) (w : Writer) (h : w.failed = false) :
    (chunks.foldl Writer.WriteString w).data <+: w.data ++ chunks.flatten := by
  induction chunks generalizing w with
  | nil => simp
  | cons c cs ih =>
    rw [List.foldl_cons, List.flatten_cons, ← List.append_assoc]
    rcases writeString_step w c h with ⟨hf, hd⟩ | ⟨hf, hd⟩
    · have := ih _ hf
      rw [hd] at this
      exact this
    · rw [foldl_writeString_failed _ _ hf]
      exact hd.trans (List.prefix_append _ _)

theorem texChunks_flatten {F : Type} (fmtF : F → Str) (ts : List (TexCoord F)) :
    (texChunks fmtF ts).flatten = texText fmtF ts := by
  unfold texChunks texText
  cases ts with
  | nil => simp
  | cons t ts =>
    simp only [List.length_cons, gt_iff_lt, Nat.zero_lt_succ, if_true, List.isEmpty_cons,
      Bool.false_eq_true, if_false, List.flatten_cons]
    congr 2
    apply List.map_congr_left
    intro vt _
    simp

theorem normalChunks_flatten {F : Type} (fmtF : F → Str) (ns : List (Normal F)) :
    (normalChunks fmtF ns).flatten = normalsText fmtF ns := by
  unfold normalChunks normalsText
  cases ns with
  | nil => simp
  | cons n ns =>
    simp only [List.length_cons, gt_iff_lt, Nat.zero_lt_succ, if_true, List.isEmpty_cons,
      Bool.false_eq_true, if_false, List.flatten_cons]
    congr 2
    apply List.map_congr_left
    intro vn _
    simp [fmt3]

theorem saveChunks_flatten {F : Type} (fmtF : F → Str) (m : Model F) :
    (saveChunks fmtF m).flatten = savedText fmtF m := by
  have hv : (List.map (fun v : Vertex F => 'v' :: ' ' :: fmt3 fmtF v.X v.Y v.Z ++ ['\n'])
      m.Vertices) = List.map (fun v => "v ".toList ++ fmtF v.X ++ " ".toList ++ fmtF v.Y
        ++ " ".toList ++ fmtF v.Z ++ "\n".toList) m.Vertices := by
    apply List.map_congr_left
    intro v _
    simp [fmt3]
  have h0 : "# Parsed .obj file\n\n".toList = "# Parsed .obj file\n".toList ++ "\n".toList := by
    decide
  unfold saveChunks savedText
  rw [hv, h0]
  simp only [List.flatten_append, texChunks_flatten, normalChunks_flatten, facesChunks_flatten,
    List.flatten_cons, List.flatten_nil, List.append_nil, List.append_assoc]

/-- C17: for every document, the text `SaveToFile` of variant B writes is, in this
order, the header comment line and a blank line, the `# Vertices` heading and one `v`
line per vertex in stored order with the stored coordinates, then the texture-coordinate
section, the normals section and the faces section, each with a blank line and its
heading, present exactly when its sequence is not empty, one line per element in stored
order; nothing else is written. When the stream stops accepting text, what is written
is a beginning of that text; when the stream cannot be created, nothing is written. -/
theorem saved_text_layout :
    ∀ (F : Type) (fmtF : F → Str) (m : Model F),
      SaveToFile fmtF ⟨false, none⟩ m = (none, savedText fmtF m) ∧
      (∀ capacity : Option Nat,
        (SaveToFile fmtF ⟨false, capacity⟩ m).2 <+: savedText fmtF m) ∧
      (∀ capacity : Option Nat, (SaveToFile fmtF ⟨true, capacity⟩ m).2 = []) := by
  intro F fmtF m
  refine ⟨?_, ?_, ?_⟩
  · unfold SaveToFile
    simp only [Bool.false_eq_true, if_false]
    rw [(foldl_writeString _ ⟨false, none⟩ rfl []).1, saveChunks_flatten]
    simp
  · intro capacity
    unfold SaveToFile
    simp only [Bool.false_eq_true, if_false]
    have := foldl_writeString_prefix (saveChunks fmtF m) ⟨⟨false, capacity⟩, [], false⟩ rfl
    rw [saveChunks_flatten] at this
    simpa using this
  · intro capacity
    simp [SaveToFile]

/-! ## The sentinel `-1` of the neighbour scan (C20) -/

/-- The neighbour scan returns the first unvisited neighbour, if there is one. -/
theorem firstUnvisited_eq_find (visited l : List Int) :
    firstUnvisited visited l = (l.find? (fun x => decide (x ∉ visited))).getD (-1) := by
  induction l with
  | nil => rfl
  | cons n rest ih =>
    rw [firstUnvisited, List.find?_cons]
    by_cases hn : n ∈ visited
    · simp [hn, ih]
    · simp [hn]

/-- Where the claim of C20 does hold: when the first unvisited neighbour of the current
vertex is not the index `-1`, it becomes the next vertex of the loop; and when the
current vertex has no unvisited neighbour, the loop ends there. (The start vertex is
visited from the first iteration on.) -/
theorem walk_extends_unless_sentinel (lineMap : List (Int × List Int)) (start current : Int)
    (fuel : Nat) (face visited : List Int) (hstart : start ∈ current :: visited) :
    (∀ n, (mapGet lineMap current).find? (fun x => decide (x ∉ current :: visited)) = some n →
      n ≠ -1 →
      walk lineMap start (fuel + 1) current face visited
        = walk lineMap start fuel n (face ++ [current]) (current :: visited)) ∧
    ((mapGet lineMap current).find? (fun x => decide (x ∉ current :: visited)) = none →
      walk lineMap start (fuel + 1) current face visited
        = some (face ++ [current], current :: visited)) := by
  constructor
  · intro n hn hne
    have hmem := List.find?_some hn
    simp only [decide_eq_true_eq] at hmem
    have hns : n ≠ start := fun e => hmem (e ▸ hstart)
    rw [walk, firstUnvisited_eq_find, hn]
    simp [hne, hns]
  · intro hn
    rw [walk, firstUnvisited_eq_find, hn]
    simp

/-- C20 (the code at a failing input): the lines `l 2 1`, `l 1 0`, `l 0 6` are stored as
the segments 1-0, 0-(-1), (-1)-5. Started at vertex 1 the loop reaches vertex 0, whose
adjacency list is 1, -1; the neighbour -1 is still unvisited, but the scan result -1 is
taken for "no neighbour" and the loop stops: it returns the vertices 1, 0 only, and
`ConvertLinesToFaces` appends no face, where following the first unvisited neighbour
would give the loop 1, 0, -1, 5. The same chain with every index one higher (segments
2-1, 1-0, 0-6) does give the face 2, 1, 0, 6. -/
theorem sentinel_stops_loop_early :
    parseLine "l 2 1".toList = .ok ⟨1, 0⟩ ∧
    parseLine "l 1 0".toList = .ok ⟨0, -1⟩ ∧
    parseLine "l 0 6".toList = .ok ⟨-1, 5⟩ ∧
    mapGet (buildLineMap [⟨1, 0⟩, ⟨0, -1⟩, ⟨-1, 5⟩]) 0 = [1, -1] ∧
    (mapGet (buildLineMap [⟨1, 0⟩, ⟨0, -1⟩, ⟨-1, 5⟩]) 0).find?
      (fun x => decide (x ∉ [0, 1])) = some (-1) ∧
    walk (buildLineMap [⟨1, 0⟩, ⟨0, -1⟩, ⟨-1, 5⟩]) 1 6 0 [1] [1] = some ([1, 0], [0, 1]) ∧
    walk (buildLineMap [⟨1, 0⟩, ⟨0, -1⟩, ⟨-1, 5⟩]) 1 7 1 [] [] = some ([1, 0], [0, 1]) ∧
    ValidOrder [1, 0, -1, 5] [⟨1, 0⟩, ⟨0, -1⟩, ⟨-1, 5⟩] ∧
    (ConvertLinesToFaces [1, 0, -1, 5]
        { (Model.empty : Model Int) with Lines := [⟨1, 0⟩, ⟨0, -1⟩, ⟨-1, 5⟩] }).map
        (fun m => m.Faces) = some [] ∧
    (ConvertLinesToFaces [2, 1, 0, 6]
        { (Model.empty : Model Int) with Lines := [⟨2, 1⟩, ⟨1, 0⟩, ⟨0, 6⟩] }).map
        (fun m => m.Faces) = some [⟨[2, 1, 0, 6], [], []⟩] := by
  decide

/-! ## Rotation keeps the distance from the origin (C21) -/

theorem sqDist_rotX {F : Type} [CommRing F] (c s : F) (h : c ^ 2 + s ^ 2 = 1) (v : Vertex F) :
    sqDist (rotX c s v) = sqDist v := by
  obtain ⟨x, y, z⟩ := v
  simp only [sqDist, rotX]
  linear_combination (y ^ 2 + z ^ 2) * h

theorem sqDist_rotY {F : Type} [CommRing F] (c s : F) (h : c ^ 2 + s ^ 2 = 1) (v : Vertex F) :
    sqDist (rotY c s v) = sqDist v := by
  obtain ⟨x, y, z⟩ := v
  simp only [sqDist, rotY]
  linear_combination (x ^ 2 + z ^ 2) * h

theorem sqDist_rotZ {F : Type} [CommRing F] (c s : F) (h : c ^ 2 + s ^ 2 = 1) (v : Vertex F) :
    sqDist (rotZ c s v) = sqDist v := by
  obtain ⟨x, y, z⟩ := v
  simp only [sqDist, rotZ]
  linear_combination (x ^ 2 + y ^ 2) * h

/-- In exact arithmetic with `cos^2 + sin^2 = 1` the three axis rotations in a row keep
the squared distance from the origin. -/
theorem sqDist_rotXYZ {F : Type} [CommRing F] (cos sin : F → F)
    (h : ∀ a, cos a ^ 2 + sin a ^ 2 = 1) (rx ry rz : F) (v : Vertex F) :
    sqDist (rotXYZ cos sin rx ry rz v) = sqDist v := by
  unfold rotXYZ
  rw [sqDist_rotZ _ _ (h rz), sqDist_rotY _ _ (h ry), sqDist_rotX _ _ (h rx)]

theorem B_rotate_vertices {F : Type} [Mul F] [Add F] [Sub F] [Neg F] (cos sin : F → F)
    (rx ry rz : F) (m : B.Model F) :
    (B.Rotate cos sin rx ry rz m).Vertices = m.Vertices.map (rotXYZ cos sin rx ry rz) := by
  simp only [B.Rotate, forRange_eq_map]
  rfl

theorem A_rotate_vertices {F : Type} [Mul F] [Add F] [Sub F] [Neg F] (cos sin : F → F)
    (rx ry rz : F) (m : A.Model F) :
    (A.Rotate cos sin rx ry rz m).Vertices = m.Vertices.map (rotXYZ cos sin rx ry rz) := by
  simp only [A.Rotate, forRange_eq_map, List.map_map]
  rfl

/-- C21: in exact real arithmetic `Rotate` (of either variant) preserves every vertex's
distance from the origin: for all angles and every vertex, `x^2 + y^2 + z^2` after
`Rotate` equals `x^2 + y^2 + z^2` before it, vertex by vertex. The same holds in any
exact arithmetic in which `cos^2 + sin^2 = 1`. -/
theorem rotate_preserves_distance :
    (∀ (rx ry rz : ℝ) (m : B.Model ℝ),
      (B.Rotate Real.cos Real.sin rx ry rz m).Vertices.map sqDist = m.Vertices.map sqDist) ∧
    (∀ (rx ry rz : ℝ) (m : A.Model ℝ),
      (A.Rotate Real.cos Real.sin rx ry rz m).Vertices.map sqDist = m.Vertices.map sqDist) ∧
    (∀ (F : Type) [CommRing F] (cos sin : F → F), (∀ a, cos a ^ 2 + sin a ^ 2 = 1) →
      ∀ (rx ry rz : F) (mA : A.Model F) (mB : B.Model F),
        (B.Rotate cos sin rx ry rz mB).Vertices.map sqDist = mB.Vertices.map sqDist ∧
        (A.Rotate cos sin rx ry rz mA).Vertices.map sqDist = mA.Vertices.map sqDist) := by
  have key : ∀ (F : Type) [CommRing F] (cos sin : F → F), (∀ a, cos a ^ 2 + sin a ^ 2 = 1) →
      ∀ (rx ry rz : F) (vs : List (Vertex F)),
        (vs.map (rotXYZ cos sin rx ry rz)).map sqDist = vs.map sqDist := by
    intro F _ cos sin h rx ry rz vs
    rw [List.map_map]
    apply List.map_congr_left
    intro v _
    exact sqDist_rotXYZ cos sin h rx ry rz v
  refine ⟨?_, ?_, ?_⟩
  · intro rx ry rz m
    rw [B_rotate_vertices]
    exact key ℝ Real.cos Real.sin Real.cos_sq_add_sin_sq rx ry rz _
  · intro rx ry rz m
    rw [A_rotate_vertices]
    exact key ℝ Real.cos Real.sin Real.cos_sq_add_sin_sq rx ry rz _
  · intro F _ cos sin h rx ry rz mA mB
    rw [B_rotate_vertices, A_rotate_vertices]
    exact ⟨key F cos sin h rx ry rz _, key F cos sin h rx ry rz _⟩

/-! ## The parsers never index out of range (C22) -/

/-- C22: on the lines `LoadFromFile` hands them the record parsers never index out of
range. For every line that starts with `v `, `vt `, `vn `, `f ` or `l ` the white-space
split has at least one field, so that dropping the first field is in bounds, and the
parser for that prefix returns a record or an error, never a panic; the slash split of a
reference always has a first component; the loop body of `LoadFromFile` returns for
every line; and the lines that are only a prefix give an error (`v `, `vt `, `vn `,
`l `) or the empty face (`f `). -/
theorem parsers_never_index_out_of_range {F : Type} (pf : Str → Option F) (line : Str) :
    (HasPrefix line ['v', ' '] = true →
      Fields line ≠ [] ∧ parseVertex pf line ≠ .error .outOfRange) ∧
    (HasPrefix line ['v', 't', ' '] = true →
      Fields line ≠ [] ∧ parseTexCoord pf line ≠ .error .outOfRange) ∧
    (HasPrefix line ['v', 'n', ' '] = true →
      Fields line ≠ [] ∧ parseNormal pf line ≠ .error .outOfRange) ∧
    (HasPrefix line ['f', ' '] = true →
      Fields line ≠ [] ∧ parseFace line ≠ .error .outOfRange) ∧
    (HasPrefix line ['l', ' '] = true →
      Fields line ≠ [] ∧ parseLine line ≠ .error .outOfRange) ∧
    (∀ part : Str, Split '/' part ≠ []) ∧
    (∀ (acc : Face) (part : Str), parseRef acc part ≠ .error .outOfRange) ∧
    (∀ m : Model F, ∃ m1, loadLine pf m line = .ok m1) ∧
    (parseVertex pf "v ".toList = .error .invalidLine ∧
      parseTexCoord pf "vt ".toList = .error .invalidLine ∧
      parseNormal pf "vn ".toList = .error .invalidLine ∧
      parseFace "f ".toList = .ok ⟨[], [], []⟩ ∧
      parseLine "l ".toList = .error .invalidLine) := by
  refine ⟨?_, ?_, ?_, ?_, ?_, fun part => split_ne_nil '/' part,
    fun acc part => parseRef_no_panic acc part, ?_, ?_⟩
  · intro h
    have hf := fields_ne_nil_of_start line _ 'v' (by decide) h
    exact ⟨hf, parseVertex_no_panic pf line hf⟩
  · intro h
    have hf := fields_ne_nil_of_start line _ 'v' (by decide) h
    exact ⟨hf, parseTexCoord_no_panic pf line hf⟩
  · intro h
    have hf := fields_ne_nil_of_start line _ 'v' (by decide) h
    exact ⟨hf, parseNormal_no_panic pf line hf⟩
  · intro h
    have hf := fields_ne_nil_of_start line _ 'f' (by decide) h
    exact ⟨hf, parseFace_no_panic line hf⟩
  · intro h
    have hf := fields_ne_nil_of_start line _ 'l' (by decide) h
    exact ⟨hf, parseLine_no_panic line hf⟩
  · intro m
    obtain ⟨m1, h, _⟩ := loadLine_vertices pf m line
    exact ⟨m1, h⟩
  · have hv : Fields ['v', ' '] = [['v']] := by decide
    have hvt : Fields ['v', 't', ' '] = [['v', 't']] := by decide
    have hvn : Fields ['v', 'n', ' '] = [['v', 'n']] := by decide
    refine ⟨?_, ?_, ?_, by decide, by decide⟩
    · show parseVertex pf ['v', ' '] = _
      unfold parseVertex
      rw [hv]
      rfl
    · show parseTexCoord pf ['v', 't', ' '] = _
      unfold parseTexCoord
      rw [hvt]
      rfl
    · show parseNormal pf ['v', 'n', ' '] = _
      unfold parseNormal
      rw [hvn]
      rfl

end ObjTool
